import Mathlib

/-!
Verification of the `new_translator` repository against its specification.

Texts are modelled as `List Char`.  Machine-level caveats of the embedding:
Python's `\d` and `str.strip()` are Unicode-aware; the repository only ever
feeds them source text, and the embedding models them over the ASCII range
(`Char.isDigit`, the six ASCII whitespace characters), which is what every
claim exercises.  Index-based loops of the source are modelled with a fuel
parameter instantiated at the input length, so that every definition is a
structural recursion the kernel can evaluate; each loop of the source
consumes at least one character per iteration, so the fuel never runs out.
-/

/-! ### Character classes used by the placeholder regex of string_translator.py

The pattern is the alternation (in this order) of
`%(\d+\$)?[0-9.\-+]*[sdfx]`, `\{[0-9]+\}`, `\$\{[^}]+\}` and `\\[ntr\"']`.
`matchFmt`, `matchBrace`, `matchDollar`, `matchEsc` decide whether the
respective alternative matches at the head of the list and return the length
of the match.  Backtracking collapses to maximal munch here because the
character classes of each quantified part are disjoint from what must follow
them (a digit is never `$`, a flag character is never a conversion letter, a
non-`}` character is never `}`). -/

def isConvChar (c : Char) : Bool := c = 's' || c = 'd' || c = 'f' || c = 'x'

def isFlagChar (c : Char) : Bool := c.isDigit || c = '.' || c = '-' || c = '+'

def isEscTail (c : Char) : Bool := c = 'n' || c = 't' || c = 'r' || c = '"' || c = '\''

def matchFmt : List Char → Option Nat
  | '%' :: rest =>
    let m := (rest.takeWhile Char.isDigit).length
    let withGroup : Option Nat :=
      if 1 ≤ m ∧ (rest.drop m).head? = some '$' then
        let r2 := rest.drop (m + 1)
        let k := (r2.takeWhile isFlagChar).length
        match (r2.drop k).head? with
        | some c => if isConvChar c then some (1 + m + 1 + k + 1) else none
        | none => none
      else none
    withGroup <|>
      (let k := (rest.takeWhile isFlagChar).length
       match (rest.drop k).head? with
       | some c => if isConvChar c then some (1 + k + 1) else none
       | none => none)
  | _ => none

def matchBrace : List Char → Option Nat
  | '\x7b' :: rest =>
    let m := (rest.takeWhile Char.isDigit).length
    if 1 ≤ m ∧ (rest.drop m).head? = some '\x7d' then some (m + 2) else none
  | _ => none

def matchDollar : List Char → Option Nat
  | '$' :: '\x7b' :: rest =>
    let p := (rest.takeWhile (fun c => c ≠ '\x7d')).length
    if 1 ≤ p ∧ (rest.drop p).head? = some '\x7d' then some (p + 3) else none
  | _ => none

def matchEsc : List Char → Option Nat
  | '\\' :: c :: _ => if isEscTail c then some 2 else none
  | _ => none

def matchPH (l : List Char) : Option Nat :=
  matchFmt l <|> matchBrace l <|> matchDollar l <|> matchEsc l

/-! ### Decimal rendering of the placeholder counter (Python f-string `__PH_{i}__`) -/

def natDigitsAux : Nat → Nat → List Char
  | 0, _ => []
  | fuel + 1, n =>
    if n = 0 then [] else natDigitsAux fuel (n / 10) ++ [Nat.digitChar (n % 10)]

def natDigits (n : Nat) : List Char :=
  if n = 0 then ['0'] else natDigitsAux (n + 1) n

/-- The synthetic token `__PH_{c}__` substituted for the c-th placeholder match. -/
def phToken (c : Nat) : List Char :=
  '_' :: '_' :: 'P' :: 'H' :: '_' :: (natDigits c ++ ['_', '_'])

/-! ### mask_placeholders / unmask_placeholders (string_translator.py lines 78-100)

`maskAuxF` is `_PLACEHOLDER_PATTERN.sub(repl, text)` together with the
`mapping` dict (kept as a list in insertion order, which is how Python
iterates a dict): scan left to right, replace each leftmost non-overlapping
match by the next synthetic token.  `replaceAllF` is Python's
`str.replace` (all leftmost non-overlapping occurrences). -/

def maskAuxF : Nat → List Char → Nat → List Char × List (List Char × List Char)
  | 0, l, _ => (l, [])
  | fuel + 1, l, c =>
    match matchPH l with
    | some L =>
      let r := maskAuxF fuel (l.drop L) (c + 1)
      (phToken c ++ r.1, (phToken c, l.take L) :: r.2)
    | none =>
      match l with
      | [] => ([], [])
      | ch :: rest =>
        let r := maskAuxF fuel rest c
        (ch :: r.1, r.2)

def mask_placeholders (text : List Char) : List Char × List (List Char × List Char) :=
  maskAuxF text.length text 0

def replaceAllF (key rep : List Char) : Nat → List Char → List Char
  | _, [] => []
  | 0, l => l
  | fuel + 1, c :: t =>
    if key ≠ [] ∧ key.isPrefixOf (c :: t) then
      rep ++ replaceAllF key rep fuel ((c :: t).drop key.length)
    else c :: replaceAllF key rep fuel t

/-- Python `s.replace(key, rep)`. -/
def replaceAll (s key rep : List Char) : List Char := replaceAllF key rep s.length s

def unmask_placeholders (text : List Char) (mapping : List (List Char × List Char)) :
    List Char :=
  mapping.foldl (fun acc kv => replaceAll acc kv.1 kv.2) text

/-- Bool test for an occurrence of `pat` as a contiguous substring of `l`. -/
def hasSubB (pat l : List Char) : Bool :=
  (List.range (l.length + 1)).any (fun i => pat.isPrefixOf (l.drop i))

/-- `pat` occurs nowhere in `l` as a contiguous substring. -/
def cleanOf (pat l : List Char) : Prop := ∀ i, ¬ pat <+: l.drop i

/-- The three-character core shared by every synthetic token. -/
def phPat : List Char := ['P', 'H', '_']

/-- Scaffolding: the original text as segments and matched originals. -/
def textOf : List (List Char × List Char) → List Char → List Char
  | [], last => last
  | (s, o) :: ps, last => s ++ o ++ textOf ps last

/-- Scaffolding: the masked text with consecutive tokens in the slots. -/
def maskedOf (c : Nat) : List (List Char × List Char) → List Char → List Char
  | [], last => last
  | (s, _) :: ps, last => s ++ phToken c ++ maskedOf (c + 1) ps last

/-- Scaffolding: the mapping produced for the slots. -/
def mapOf (c : Nat) : List (List Char × List Char) → List (List Char × List Char)
  | [] => []
  | (_, o) :: ps => (phToken c, o) :: mapOf (c + 1) ps

/-- Scaffolding: decimal value of a digit string, used to invert `natDigits`. -/
def digitsVal (l : List Char) : Nat := l.foldl (fun a c => 10 * a + (c.toNat - 48)) 0

/-! ### java_translator.py : JavaTranslator.translate

The scanner is the single left-to-right loop of `translate` with mode
register NORMAL/STRING/CHAR/LINE_COMMENT/BLOCK_COMMENT.  `_is_escaped` counts
the backslashes immediately left of the current position; the embedding
threads its parity as the Boolean `esc` (reset to `false` after every
delimiter, since delimiters are never backslashes).  The string translator is
a function  `tr : List Char → Option (List Char)`; `some t` models a
successful `translate_string` call and `none` an exception, which
`translate_buffer` catches by substituting the original content.  `jgo`
returns the emitted output together with the list of span contents submitted
to the translator, in order; empty buffers are returned without a call. -/

inductive JMode
  | normal
  | jstring
  | jchar
  | lineComment
  | blockComment
deriving DecidableEq

/-- translate_buffer: empty content short-circuits, an exception falls back
to the original content; the second component records the submitted span. -/
def flushBuf (tr : List Char → Option (List Char)) (buf : List Char) :
    List Char × List (List Char) :=
  if buf = [] then ([], []) else ((tr buf).getD buf, [buf])

def jgo (tr : List Char → Option (List Char)) :
    JMode → Bool → List Char → List Char → List Char × List (List Char)
  | .normal, _, _, [] => ([], [])
  | .jchar, _, _, [] => ([], [])
  | .jstring, _, buf, [] => (buf, [])
  | .blockComment, _, buf, [] => (buf, [])
  | .lineComment, _, buf, [] => flushBuf tr buf
  | .normal, _, _, '"' :: rest =>
    let r := jgo tr .jstring false [] rest
    ('"' :: r.1, r.2)
  | .normal, _, _, '\'' :: rest =>
    let r := jgo tr .jchar false [] rest
    ('\'' :: r.1, r.2)
  | .normal, _, _, '/' :: '/' :: rest =>
    let r := jgo tr .lineComment false [] rest
    ('/' :: '/' :: r.1, r.2)
  | .normal, _, _, '/' :: '*' :: '*' :: rest =>
    let r := jgo tr .blockComment false [] rest
    ('/' :: '*' :: '*' :: r.1, r.2)
  | .normal, _, _, '/' :: '*' :: rest =>
    let r := jgo tr .blockComment false [] rest
    ('/' :: '*' :: r.1, r.2)
  | .normal, esc, buf, ch :: rest =>
    let r := jgo tr .normal (if ch = '\\' then !esc else false) buf rest
    (ch :: r.1, r.2)
  | .jstring, esc, buf, ch :: rest =>
    if ch = '"' ∧ esc = false then
      let f := flushBuf tr buf
      let r := jgo tr .normal false [] rest
      (f.1 ++ '"' :: r.1, f.2 ++ r.2)
    else
      jgo tr .jstring (if ch = '\\' then !esc else false) (buf ++ [ch]) rest
  | .jchar, esc, buf, ch :: rest =>
    if ch = '\'' ∧ esc = false then
      let r := jgo tr .normal false buf rest
      (ch :: r.1, r.2)
    else
      let r := jgo tr .jchar (if ch = '\\' then !esc else false) buf rest
      (ch :: r.1, r.2)
  | .lineComment, _, buf, '\n' :: rest =>
    let f := flushBuf tr buf
    let r := jgo tr .normal false [] rest
    (f.1 ++ '\n' :: r.1, f.2 ++ r.2)
  | .lineComment, esc, buf, ch :: rest =>
    jgo tr .lineComment (if ch = '\\' then !esc else false) (buf ++ [ch]) rest
  | .blockComment, _, buf, '*' :: '/' :: rest =>
    let f := flushBuf tr buf
    let r := jgo tr .normal false [] rest
    (f.1 ++ '*' :: '/' :: r.1, f.2 ++ r.2)
  | .blockComment, esc, buf, ch :: rest =>
    jgo tr .blockComment (if ch = '\\' then !esc else false) (buf ++ [ch]) rest

/-- JavaTranslator.translate (text → text, plus the submitted span list). -/
def javaTranslate (tr : List Char → Option (List Char)) (text : List Char) :
    List Char × List (List Char) :=
  jgo tr .normal false [] text

/-- The state component of the same scan: final mode, escape parity and
buffer content at end-of-input. -/
def jscan : JMode → Bool → List Char → List Char → JMode × Bool × List Char
  | m, esc, buf, [] => (m, esc, buf)
  | .normal, _, _, '"' :: rest => jscan .jstring false [] rest
  | .normal, _, _, '\'' :: rest => jscan .jchar false [] rest
  | .normal, _, _, '/' :: '/' :: rest => jscan .lineComment false [] rest
  | .normal, _, _, '/' :: '*' :: '*' :: rest => jscan .blockComment false [] rest
  | .normal, _, _, '/' :: '*' :: rest => jscan .blockComment false [] rest
  | .normal, esc, buf, ch :: rest =>
    jscan .normal (if ch = '\\' then !esc else false) buf rest
  | .jstring, esc, buf, ch :: rest =>
    if ch = '"' ∧ esc = false then jscan .normal false [] rest
    else jscan .jstring (if ch = '\\' then !esc else false) (buf ++ [ch]) rest
  | .jchar, esc, buf, ch :: rest =>
    if ch = '\'' ∧ esc = false then jscan .normal false buf rest
    else jscan .jchar (if ch = '\\' then !esc else false) buf rest
  | .lineComment, _, _, '\n' :: rest => jscan .normal false [] rest
  | .lineComment, esc, buf, ch :: rest =>
    jscan .lineComment (if ch = '\\' then !esc else false) (buf ++ [ch]) rest
  | .blockComment, _, _, '*' :: '/' :: rest => jscan .normal false [] rest
  | .blockComment, esc, buf, ch :: rest =>
    jscan .blockComment (if ch = '\\' then !esc else false) (buf ++ [ch]) rest

/-- No `*/` occurs in the list: a block comment stays open to end-of-input. -/
def noClose : List Char → Bool
  | '*' :: '/' :: _ => false
  | _ :: rest => noClose rest
  | [] => true

/-- Scanning the list in string mode with the given parity never closes the
string literal (no unescaped quote). -/
def strOpen : Bool → List Char → Bool
  | _, [] => true
  | esc, c :: rest =>
    if c = '"' ∧ esc = false then false
    else strOpen (if c = '\\' then !esc else false) rest

/-- Which modes hold translatable content in the buffer. -/
def modeKeepsBuf : JMode → Bool
  | .jstring => true
  | .lineComment => true
  | .blockComment => true
  | _ => false

/-- Python `str.strip()` whitespace, modelled over ASCII. -/
def isPySpace (c : Char) : Bool :=
  c = ' ' || c = '\t' || c = '\n' || c = '\r' || c = '\x0b' || c = '\x0c'

/-- Python `s.strip()`. -/
def pyStrip (l : List Char) : List Char :=
  ((l.dropWhile isPySpace).reverse.dropWhile isPySpace).reverse

/-! ### core/file_router.py : route_and_process_file

The filesystem and the translator are abstracted into an environment record:
whether the source is a regular file, whether the destination already exists,
whether a translator is registered for the extension (`translators_by_ext.get`),
the raw bytes `shutil.copy2` would copy, what `read_text` returns (`none`
models a raised exception), what `translator(text)` returns (`none` models a
raised exception), and whether copy and write succeed.  The result records
the outcome, whether the source was touched (read or copied), what was
written to the destination (`none` = destination file untouched), and the
deltas applied to the `Stats` counters. -/

structure RouteEnv where
  srcIsFile : Bool
  dstExists : Bool
  hasTranslator : Bool
  srcBytes : List Char
  readResult : Option (List Char)
  translateResult : List Char → Option (List Char)
  copyOk : Bool
  writeOk : Bool

inductive RouteOutcome
  | noFile
  | skippedResume
  | copied
  | copyError
  | readError
  | emptyCopied
  | translateError
  | writeError
  | translated
deriving DecidableEq

structure RouteResult where
  outcome : RouteOutcome
  srcRead : Bool
  dstWritten : Option (List Char)
  dTotal : Nat
  dTranslated : Nat
  dSkipped : Nat
  dError : Nat
deriving DecidableEq

def route_and_process_file (e : RouteEnv) : RouteResult :=
  if e.srcIsFile = false then
    ⟨.noFile, false, none, 0, 0, 0, 0⟩
  else if e.dstExists = true ∧ e.hasTranslator = true then
    ⟨.skippedResume, false, none, 1, 0, 1, 0⟩
  else if e.hasTranslator = false then
    if e.copyOk = true then ⟨.copied, true, some e.srcBytes, 1, 0, 1, 0⟩
    else ⟨.copyError, true, none, 1, 0, 0, 1⟩
  else
    match e.readResult with
    | none => ⟨.readError, true, none, 1, 0, 0, 1⟩
    | some text =>
      if pyStrip text = [] then
        if e.writeOk = true then ⟨.emptyCopied, true, some text, 1, 0, 1, 0⟩
        else ⟨.writeError, true, none, 1, 0, 0, 1⟩
      else
        match e.translateResult text with
        | none => ⟨.translateError, true, none, 1, 0, 0, 1⟩
        | some translated =>
          if e.writeOk = true then ⟨.translated, true, some translated, 1, 1, 0, 0⟩
          else ⟨.writeError, true, none, 1, 0, 0, 1⟩

/-! ### string_translator.py : visibility heuristic and translate_string

`is_i18n_key_like`, `looks_like_path_or_technical` and
`is_human_visible_string` mirror string_translator.py lines 14-52 (the
allowed set is the literal ASCII set of the source).  `translate_string`
mirrors lines 139-176: cache lookup keyed by the exact string, the
visibility gate caching the identity mapping, masking, the backend call, the
strip of a spurious outer quote pair, unmasking, and caching of the result.
The backend (prompt construction in the absent `prompts` module plus
`client.translate`) is abstracted as a function from the masked text to the
response text; the stats counters and the glossary append are side effects
not modelled.  The state is the cache as an association list, newest entry
first (Python dict lookup); the third component of the result counts the
backend calls made by the invocation. -/

def isAllowedKeyChar (c : Char) : Bool :=
  ('a' ≤ c && c ≤ 'z') || ('A' ≤ c && c ≤ 'Z') || ('0' ≤ c && c ≤ '9') ||
    c = '.' || c = '_' || c = '-'

def is_i18n_key_like (s : List Char) : Bool :=
  let t := pyStrip s
  if t = [] then false
  else if ' ' ∈ t then false
  else t.all isAllowedKeyChar

def looks_like_path_or_technical (s : List Char) : Bool :=
  let t := pyStrip s
  if t = [] then false
  else if (t.contains '\\' || t.contains '/') && !(t.contains ' ') then true
  else false

def is_human_visible_string (s : List Char) : Bool :=
  let t := pyStrip s
  if t = [] then false
  else if is_i18n_key_like t then false
  else if looks_like_path_or_technical t then false
  else if ' ' ∈ t then true
  else if '.' ∈ t || ',' ∈ t || '!' ∈ t || '?' ∈ t || ':' ∈ t then true
  else true

/-- The backend sometimes wraps the answer in quotes; strip one outer pair
and re-strip whitespace (string_translator.py lines 165-170). -/
def stripOuterQuote (t : List Char) : List Char :=
  if (t.head? = some '"' ∧ t.getLast? = some '"') ∨
      (t.head? = some '\'' ∧ t.getLast? = some '\'') then
    pyStrip ((t.drop 1).dropLast)
  else t

def translate_string (client : List Char → List Char)
    (st : List (List Char × List Char)) (s : List Char) :
    List Char × List (List Char × List Char) × Nat :=
  match List.lookup s st with
  | some t => (t, st, 0)
  | none =>
    if is_human_visible_string s = false then (s, (s, s) :: st, 0)
    else
      let m := mask_placeholders s
      let t := stripOuterQuote (pyStrip (client m.1))
      let t2 := unmask_placeholders t m.2
      (t2, (s, t2) :: st, 1)

/-- The claim's own wording of the not-visible classes, as a predicate on a
string: empty or whitespace-only, or identifier-key-like (only ASCII
letters, digits, `.`, `_`, `-`, and no space), or path-like (contains `/`
or `\` and no space). -/
def claimNotVisible (t : List Char) : Bool :=
  t.all isPySpace || (!t.isEmpty && t.all isAllowedKeyChar) ||
    ((t.contains '/' || t.contains '\\') && !(t.contains ' '))

/-! ### qa_report.py : structural QA for Java

`_mask_java_skeleton` is the index loop of qa_report.py lines 109-202:
line comments are replaced by `__CMTi__` markers with the text skipped to
the next CR/LF (the newline itself kept), block comments by `__CMTi__` with
the text skipped past the next `*/` (an unterminated block comment stops
the scan), string literals by `__STRi__` with an escape-aware skip, char
literals are kept as a bare quote pair with their content dropped, and all
other characters are copied.  `qa_code_java` (lines 205-254) assembles the
issue list in source order and derives the status. -/

structure QaIssue where
  code : String
  message : String
deriving DecidableEq

structure QaCheckResult where
  status : String
  issues : List QaIssue
  details : List (String × Nat)
deriving DecidableEq

def BANNED_SUBSTRINGS : List (List Char) :=
  ["OpenAI".toList, "ChatGPT".toList, "LLM".toList, "API".toList,
   "Key improvements".toList, "The code now".toList,
   "Error generating text".toList, "In this example".toList, "Below is".toList]

def CRITICAL_ISSUES : List String :=
  ["empty_translation", "banned_token", "structure_changed"]

def _check_banned (text : List Char) : List QaIssue :=
  (BANNED_SUBSTRINGS.filter (fun tok => hasSubB tok text)).map
    (fun tok => ⟨"banned_token", String.mk tok⟩)

/-- Python `text.find("*/", i)` then resume after it; `none` models -1. -/
def skipBlockClose : List Char → Option (List Char)
  | '*' :: '/' :: rest => some rest
  | _ :: rest => skipBlockClose rest
  | [] => none

/-- The escape-aware skip over a string literal body. -/
def skipStrLit : Bool → List Char → List Char
  | _, [] => []
  | true, _ :: rest => skipStrLit false rest
  | false, c :: rest =>
    if c = '\\' then skipStrLit true rest
    else if c = '"' then rest
    else skipStrLit false rest

/-- The escape-aware skip over a char literal body. -/
def skipChrLit : Bool → List Char → List Char
  | _, [] => []
  | true, _ :: rest => skipChrLit false rest
  | false, c :: rest =>
    if c = '\\' then skipChrLit true rest
    else if c = '\'' then rest
    else skipChrLit false rest

def skelF : Nat → List Char → Nat → Nat → List Char × Nat × Nat
  | 0, _, strC, cmtC => ([], strC, cmtC)
  | fuel + 1, l, strC, cmtC =>
    match l with
    | [] => ([], strC, cmtC)
    | '/' :: '/' :: rest =>
      let k := "__CMT".toList ++ natDigits cmtC ++ "__".toList
      match rest.dropWhile (fun c => !(c = '\r' || c = '\n')) with
      | [] =>
        let r := skelF fuel [] strC (cmtC + 1)
        (k ++ r.1, r.2)
      | nl :: rest3 =>
        let r := skelF fuel rest3 strC (cmtC + 1)
        (k ++ nl :: r.1, r.2)
    | '/' :: '*' :: rest =>
      let k := "__CMT".toList ++ natDigits cmtC ++ "__".toList
      match skipBlockClose rest with
      | none => (k, strC, cmtC + 1)
      | some rest2 =>
        let r := skelF fuel rest2 strC (cmtC + 1)
        (k ++ r.1, r.2)
    | '"' :: rest =>
      let k := "__STR".toList ++ natDigits strC ++ "__".toList
      let r := skelF fuel (skipStrLit false rest) (strC + 1) cmtC
      (k ++ r.1, r.2)
    | '\'' :: c2 :: rest =>
      let r := skelF fuel (skipChrLit false (c2 :: rest)) strC cmtC
      ('\'' :: '\'' :: r.1, r.2)
    | c :: rest =>
      let r := skelF fuel rest strC cmtC
      (c :: r.1, r.2)

def _mask_java_skeleton (text : List Char) : List Char × Nat × Nat :=
  skelF text.length text 0 0

/-- The status derivation shared by the QA checks (qa_report.py lines
246-250): `fail` on any critical issue, else `warn` on any issue, else
`ok`. -/
def mkStatus (issues : List QaIssue) : String :=
  if issues.any (fun i => CRITICAL_ISSUES.contains i.code) then "fail"
  else if issues ≠ [] then "warn"
  else "ok"

def qa_code_java (orig translated : List Char) : QaCheckResult :=
  let emptyIssues : List QaIssue :=
    if pyStrip translated = [] then
      [⟨"empty_translation", "Translated Java file is empty."⟩]
    else []
  let so := _mask_java_skeleton orig
  let st := _mask_java_skeleton translated
  let structIssues : List QaIssue :=
    if so.1 ≠ st.1 then
      [⟨"structure_changed", "Code skeleton changed between original and translation."⟩]
    else []
  let strIssues : List QaIssue :=
    if so.2.1 ≠ st.2.1 then
      [⟨"string_count_mismatch", "Number of string literals changed."⟩]
    else []
  let cmtIssues : List QaIssue :=
    if so.2.2 ≠ st.2.2 then
      [⟨"comment_count_mismatch", "Number of comments changed."⟩]
    else []
  let issues := emptyIssues ++ structIssues ++ strIssues ++ cmtIssues ++
    _check_banned translated
  ⟨mkStatus issues, issues,
    [("strings_orig", so.2.1), ("strings_translated", st.2.1),
     ("comments_orig", so.2.2), ("comments_translated", st.2.2)]⟩

/-! ### translate_project.py : main

`main` (lines 58-245) parses arguments, configures logging, constructs the
client, stats, glossary, StringTranslator and JavaTranslator, registers the
`.java` translator, discovers every file under the input root, maps
`route_and_process_file` over all of them with a worker pool, and finally
logs the aggregate summary.  No call to `sanity_check.run_all` (or to any
other QA-gate code) occurs anywhere in translate_project.py.  `mainTrace`
records the orchestration-level event sequence of a run: one processing
event per discovered file — carrying the file's error flag, since
processing continues regardless of individual outcomes — followed by the
summary. -/

inductive MainEvent
  | qaGateRun
  | fileProcessed (rel : String) (errored : Bool)
  | summaryPrinted
deriving DecidableEq

def mainTrace (files : List (String × Bool)) : List MainEvent :=
  files.map (fun f => MainEvent.fileProcessed f.1 f.2) ++ [MainEvent.summaryPrinted]

/-! ### Generic list lemmas -/

theorem consPre {a b : Char} {l m : List Char} : a :: l <+: b :: m ↔ a = b ∧ l <+: m := by
  constructor
  · rintro ⟨t, ht⟩
    injection ht with h1 h2
    exact ⟨h1, t, h2⟩
  · rintro ⟨rfl, t, ht⟩
    exact ⟨t, by rw [List.cons_append, ht]⟩

theorem isPreB {l₁ l₂ : List Char} : l₁.isPrefixOf l₂ = true ↔ l₁ <+: l₂ := by
  induction l₁ generalizing l₂ with
  | nil => simp [List.isPrefixOf, List.nil_prefix]
  | cons a t ih =>
    cases l₂ with
    | nil =>
      simp only [List.isPrefixOf]
      constructor
      · intro h; cases h
      · rintro ⟨u, hu⟩; cases hu
    | cons b t₂ =>
      simp only [List.isPrefixOf, Bool.and_eq_true, beq_iff_eq, ih, consPre]

theorem takePre (n : Nat) (l : List Char) : l.take n <+: l :=
  ⟨l.drop n, List.take_append_drop n l⟩

theorem preDrop {x l : List Char} (h : x <+: l) (i : Nat) : x.drop i <+: l.drop i := by
  obtain ⟨t, rfl⟩ := h
  rw [List.drop_append_eq_append_drop]
  exact ⟨_, rfl⟩

theorem preTakeEq {K l : List Char} (h : K <+: l) : K = l.take K.length := by
  obtain ⟨t, rfl⟩ := h
  rw [List.take_left]

theorem preSplitLow {K a Z : List Char} (h : K <+: a ++ Z) (hl : K.length ≤ a.length) :
    K <+: a := by
  have hK := preTakeEq h
  rw [List.take_append_eq_append_take, Nat.sub_eq_zero_of_le hl, List.take_zero,
    List.append_nil] at hK
  exact hK ▸ takePre K.length a

theorem preSplitHigh {K a Z : List Char} (h : K <+: a ++ Z) (hl : a.length ≤ K.length) :
    a <+: K ∧ K.drop a.length <+: Z := by
  obtain ⟨t, ht⟩ := h
  constructor
  · have : (K ++ t).take a.length = (a ++ Z).take a.length := by rw [ht]
    rw [List.take_append_eq_append_take, Nat.sub_eq_zero_of_le hl, List.take_zero,
      List.append_nil, List.take_left] at this
    exact this ▸ takePre a.length K
  · have : (K ++ t).drop a.length = (a ++ Z).drop a.length := by rw [ht]
    simp only [List.drop_append_eq_append_drop, Nat.sub_eq_zero_of_le hl, Nat.sub_self,
      List.drop_zero, List.drop_length, List.nil_append] at this
    exact ⟨_, this⟩

theorem cleanPre {pat x l : List Char} (hx : x <+: l) (h : cleanOf pat l) : cleanOf pat x :=
  fun i hp => h i (hp.trans (preDrop hx i))

theorem cleanDrop {pat l : List Char} (h : cleanOf pat l) (n : Nat) :
    cleanOf pat (l.drop n) := by
  intro i hp
  rw [List.drop_drop] at hp
  exact h (n + i) hp

theorem cleanAppL {pat x y : List Char} (h : cleanOf pat (x ++ y)) : cleanOf pat x :=
  cleanPre ⟨y, rfl⟩ h

theorem cleanAppR {pat x y : List Char} (h : cleanOf pat (x ++ y)) : cleanOf pat y := by
  have := cleanDrop h x.length
  rwa [List.drop_left] at this

theorem cleanOfIff {pat l : List Char} : cleanOf pat l ↔ hasSubB pat l = false := by
  constructor
  · intro h
    rw [← Bool.not_eq_true, hasSubB, List.any_eq_true]
    rintro ⟨i, _, hp⟩
    exact h i (isPreB.mp hp)
  · intro h i hp
    have hall : ∀ j ∈ List.range (l.length + 1), ¬ pat.isPrefixOf (l.drop j) = true := by
      intro j hj hpj
      have : hasSubB pat l = true := by
        rw [hasSubB, List.any_eq_true]; exact ⟨j, hj, hpj⟩
      rw [h] at this; cases this
    rcases le_or_lt i l.length with hle | hlt
    · exact hall i (List.mem_range.mpr (by omega)) (isPreB.mpr hp)
    · have hnil : l.drop i = [] := List.drop_eq_nil_of_le (by omega)
      rw [hnil] at hp
      obtain ⟨t, ht⟩ := hp
      have hpat : pat = [] := (List.append_eq_nil.mp ht).1
      exact hall 0 (List.mem_range.mpr (by omega))
        (isPreB.mpr (by rw [hpat]; exact List.nil_prefix))

/-! ### Digit-string lemmas for the synthetic tokens -/

theorem digitCharIsDigit {d : Nat} (h : d < 10) : (Nat.digitChar d).isDigit = true := by
  interval_cases d <;> decide

theorem digitCharSub {d : Nat} (h : d < 10) : (Nat.digitChar d).toNat - 48 = d := by
  interval_cases d <;> decide

theorem digitsValSnoc (xs : List Char) (c : Char) :
    digitsVal (xs ++ [c]) = 10 * digitsVal xs + (c.toNat - 48) := by
  simp [digitsVal, List.foldl_append]

theorem natDigitsAuxVal : ∀ fuel n, n < 10 ^ fuel → digitsVal (natDigitsAux fuel n) = n := by
  intro fuel
  induction fuel with
  | zero =>
    intro n h
    simp only [pow_zero, Nat.lt_one_iff] at h
    subst h
    simp [natDigitsAux, digitsVal]
  | succ f ih =>
    intro n h
    by_cases hn : n = 0
    · subst hn; simp [natDigitsAux, digitsVal]
    · have hdiv : n / 10 < 10 ^ f := by
        rw [Nat.div_lt_iff_lt_mul (by norm_num)]
        calc n < 10 ^ (f + 1) := h
          _ = 10 ^ f * 10 := by rw [pow_succ]
      have hmod : n % 10 < 10 := Nat.mod_lt _ (by norm_num)
      simp only [natDigitsAux, hn, if_false]
      rw [digitsValSnoc, ih _ hdiv, digitCharSub hmod]
      omega

theorem natDigitsVal (n : Nat) : digitsVal (natDigits n) = n := by
  by_cases hn : n = 0
  · subst hn; simp [natDigits, digitsVal]
  · have h1 : n < 10 ^ n := Nat.lt_pow_self (by norm_num) n
    have h2 : (10 : Nat) ^ n ≤ 10 ^ (n + 1) := Nat.pow_le_pow_right (by norm_num) (Nat.le_succ n)
    simp only [natDigits, hn, if_false]
    exact natDigitsAuxVal (n + 1) n (by omega)

theorem natDigitsInj {m n : Nat} (h : natDigits m = natDigits n) : m = n := by
  have := congrArg digitsVal h
  rwa [natDigitsVal, natDigitsVal] at this

theorem natDigitsNeNil (n : Nat) : natDigits n ≠ [] := by
  by_cases hn : n = 0
  · subst hn; simp [natDigits]
  · simp only [natDigits, hn, if_false]
    cases hfuel : natDigitsAux (n + 1) n with
    | nil =>
      rw [natDigitsAux] at hfuel
      simp [hn] at hfuel
    | cons a t => simp

theorem natDigitsAuxDigits : ∀ fuel n c, c ∈ natDigitsAux fuel n → c.isDigit = true := by
  intro fuel
  induction fuel with
  | zero => intro n c h; simp [natDigitsAux] at h
  | succ f ih =>
    intro n c h
    by_cases hn : n = 0
    · simp [natDigitsAux, hn] at h
    · simp only [natDigitsAux, hn, if_false, List.mem_append, List.mem_singleton] at h
      rcases h with h | h
      · exact ih _ _ h
      · subst h; exact digitCharIsDigit (Nat.mod_lt _ (by norm_num))

theorem natDigitsDigits (n : Nat) : ∀ c ∈ natDigits n, c.isDigit = true := by
  intro c h
  by_cases hn : n = 0
  · subst hn; simp [natDigits] at h; subst h; decide
  · simp only [natDigits, hn, if_false] at h
    exact natDigitsAuxDigits _ _ _ h

/-! ### Occurrence analysis for synthetic tokens

A token `__PH_c__` can occur in a masked text only in the slot where it was
inserted: its `PH_` core cannot come from text that contains no `PH_`
substring, and its digit block cannot line up against another token. -/

theorem occPatDrop {c : Nat} {K : List Char} (h : phToken c <+: K) : phPat <+: K.drop 2 :=
  List.IsPrefix.trans ⟨natDigits c ++ ['_', '_'], rfl⟩ (preDrop h 2)

theorem noPInTail (c : Nat) : 'P' ∉ natDigits c ++ ['_', '_'] := by
  intro h
  rcases List.mem_append.mp h with h | h
  · have := natDigitsDigits c 'P' h
    simp [Char.isDigit] at this
  · simp at h

theorem dropTokNoStartP (c : Nat) (δ : Nat) (hδ : 1 ≤ δ) (Y : List Char) :
    ¬ ('_' :: '_' :: 'P' :: Y <+: (phToken c).drop δ) := by
  intro h
  rcases Nat.lt_or_ge δ 5 with h5 | h5
  · interval_cases δ
    · -- δ = 1
      rw [show (phToken c).drop 1 = '_' :: 'P' :: 'H' :: '_' :: (natDigits c ++ ['_', '_'])
          from rfl] at h
      rw [consPre] at h
      rw [consPre] at h
      simp at h
    · rw [show (phToken c).drop 2 = 'P' :: 'H' :: '_' :: (natDigits c ++ ['_', '_'])
          from rfl] at h
      rw [consPre] at h
      simp at h
    · rw [show (phToken c).drop 3 = 'H' :: '_' :: (natDigits c ++ ['_', '_'])
          from rfl] at h
      rw [consPre] at h
      simp at h
    · rw [show (phToken c).drop 4 = '_' :: (natDigits c ++ ['_', '_']) from rfl] at h
      rw [consPre] at h
      obtain ⟨-, h⟩ := h
      obtain ⟨d, ds, hds⟩ := List.exists_cons_of_ne_nil (natDigitsNeNil c)
      rw [hds, List.cons_append, consPre] at h
      obtain ⟨hd, -⟩ := h
      have := natDigitsDigits c d (by rw [hds]; exact List.mem_cons_self d ds)
      rw [← hd] at this
      simp [Char.isDigit] at this
  · have hdrop : (phToken c).drop δ = (natDigits c ++ ['_', '_']).drop (δ - 5) := by
      have : phToken c = ['_', '_', 'P', 'H', '_'] ++ (natDigits c ++ ['_', '_']) := rfl
      rw [this, List.drop_append_eq_append_drop]
      rw [List.drop_eq_nil_of_le (by simp; omega), List.nil_append]
      norm_num
    rw [hdrop] at h
    have hmem : 'P' ∈ (natDigits c ++ ['_', '_']).drop (δ - 5) :=
      h.subset (by simp)
    exact noPInTail c (List.drop_subset _ _ hmem)

theorem digitCut :
    ∀ (x y : List Char), (∀ c ∈ x, c.isDigit = true) → (∀ c ∈ y, c.isDigit = true) →
      ∀ (A B : List Char), (x ++ '_' :: A <+: y ++ '_' :: B) → x = y := by
  intro x
  induction x with
  | nil =>
    intro y hx hy A B h
    cases y with
    | nil => rfl
    | cons d y' =>
      rw [List.nil_append, List.cons_append, consPre] at h
      obtain ⟨hd, -⟩ := h
      have := hy d (List.mem_cons_self d y')
      rw [← hd] at this
      simp [Char.isDigit] at this
  | cons a x' ih =>
    intro y hx hy A B h
    cases y with
    | nil =>
      rw [List.cons_append, List.nil_append, consPre] at h
      obtain ⟨ha, -⟩ := h
      have := hx a (List.mem_cons_self a x')
      rw [ha] at this
      simp [Char.isDigit] at this
    | cons b y' =>
      rw [List.cons_append, List.cons_append, consPre] at h
      obtain ⟨hab, h⟩ := h
      have := ih y' (fun c hc => hx c (List.mem_cons_of_mem a hc))
        (fun c hc => hy c (List.mem_cons_of_mem b hc)) A B h
      rw [hab, this]

theorem tokNoPre {c c' : Nat} (h : c ≠ c') (X : List Char) :
    ¬ (phToken c <+: phToken c' ++ X) := by
  intro hp
  have hshape : phToken c' ++ X =
      '_' :: '_' :: 'P' :: 'H' :: '_' :: (natDigits c' ++ ('_' :: '_' :: X)) := by
    simp [phToken]
  rw [hshape, phToken] at hp
  rw [consPre] at hp; obtain ⟨-, hp⟩ := hp
  rw [consPre] at hp; obtain ⟨-, hp⟩ := hp
  rw [consPre] at hp; obtain ⟨-, hp⟩ := hp
  rw [consPre] at hp; obtain ⟨-, hp⟩ := hp
  rw [consPre] at hp; obtain ⟨-, hp⟩ := hp
  have hx : natDigits c ++ '_' :: ['_'] <+: natDigits c' ++ '_' :: ('_' :: X) := by
    simpa using hp
  exact h (natDigitsInj (digitCut (natDigits c) (natDigits c')
    (natDigitsDigits c) (natDigitsDigits c') _ _ hx))

theorem segStart {a : List Char} (ha : a ≠ []) (hclean : cleanOf phPat a) (c : Nat)
    (Z : List Char) : ¬ (phToken c <+: a ++ ('_' :: '_' :: 'P' :: 'H' :: '_' :: Z)) := by
  intro h
  rcases le_or_lt (phToken c).length a.length with hl | hl
  · exact hclean 2 (occPatDrop (preSplitLow h hl))
  · obtain ⟨hpre, hdrop⟩ := preSplitHigh h (le_of_lt hl)
    have hlen : 1 ≤ a.length := by
      cases a with
      | nil => exact absurd rfl ha
      | cons x t => simp
    rcases Nat.lt_or_ge a.length 5 with h5 | h5
    · have hn4 : a.length ≤ 4 := by omega
      have heq := preTakeEq hpre
      interval_cases hni : a.length
      · -- a.length = 1 : only the drop part matters
        rw [show (phToken c).drop 1 = '_' :: 'P' :: 'H' :: '_' :: (natDigits c ++ ['_', '_'])
            from rfl] at hdrop
        rw [consPre] at hdrop; obtain ⟨-, hdrop⟩ := hdrop
        rw [consPre] at hdrop
        simp at hdrop
      · rw [show (phToken c).drop 2 = 'P' :: 'H' :: '_' :: (natDigits c ++ ['_', '_'])
            from rfl] at hdrop
        rw [consPre] at hdrop
        simp at hdrop
      · rw [show (phToken c).drop 3 = 'H' :: '_' :: (natDigits c ++ ['_', '_'])
            from rfl] at hdrop
        rw [consPre] at hdrop
        simp at hdrop
      · rw [show (phToken c).drop 4 = '_' :: (natDigits c ++ ['_', '_']) from rfl] at hdrop
        rw [consPre] at hdrop; obtain ⟨-, hdrop⟩ := hdrop
        obtain ⟨d, ds, hds⟩ := List.exists_cons_of_ne_nil (natDigitsNeNil c)
        rw [hds, List.cons_append, consPre] at hdrop
        obtain ⟨hd, -⟩ := hdrop
        have := natDigitsDigits c d (by rw [hds]; exact List.mem_cons_self d ds)
        rw [hd] at this
        simp [Char.isDigit] at this
    · -- a.length ≥ 5 : a itself contains the PH_ core at position 2
      apply hclean 2
      have hk : ∃ k, a.length - 2 = k + 3 := ⟨a.length - 5, by omega⟩
      obtain ⟨k, hk⟩ := hk
      have hda : a.drop 2 =
          'P' :: 'H' :: '_' :: ((natDigits c ++ ['_', '_']).take k) := by
        rw [preTakeEq hpre, List.drop_take, hk]
        rfl
      rw [hda]
      exact ⟨_, rfl⟩

theorem cleanMaskedPieces {s o : List Char} {ps : List (List Char × List Char)}
    {last : List Char} (hcl : cleanOf phPat (textOf ((s, o) :: ps) last)) :
    cleanOf phPat s ∧ cleanOf phPat (textOf ps last) := by
  have h1 : cleanOf phPat (s ++ o ++ textOf ps last) := hcl
  exact ⟨cleanAppL (cleanAppL h1), cleanAppR h1⟩

theorem noPreB1 {d : Char} (hd : d.isDigit = true) (c₂ : Nat)
    (P : List (List Char × List Char)) (last : List Char)
    (hcl : cleanOf phPat (textOf P last)) (W : List Char) :
    ¬ ('_' :: 'P' :: 'H' :: '_' :: d :: W <+: maskedOf c₂ P last) := by
  intro h
  cases P with
  | nil =>
    simp only [maskedOf] at h
    exact hcl 1 (List.IsPrefix.trans ⟨d :: W, rfl⟩ (preDrop h 1))
  | cons p ps =>
    obtain ⟨s, o⟩ := p
    obtain ⟨hs, -⟩ := cleanMaskedPieces hcl
    have hshape : maskedOf c₂ ((s, o) :: ps) last =
        s ++ ('_' :: '_' :: 'P' :: 'H' :: '_' ::
          ((natDigits c₂ ++ ['_', '_']) ++ maskedOf (c₂ + 1) ps last)) := by
      simp [maskedOf, phToken]
    rw [hshape] at h
    rcases s with _ | ⟨x, _ | ⟨y, _ | ⟨z, _ | ⟨w, s4⟩⟩⟩⟩
    · rw [List.nil_append, consPre] at h; obtain ⟨-, h⟩ := h
      rw [consPre] at h
      exact absurd h.1 (by decide)
    · simp only [List.cons_append, List.nil_append] at h
      rw [consPre] at h; obtain ⟨-, h⟩ := h
      rw [consPre] at h
      exact absurd h.1 (by decide)
    · simp only [List.cons_append, List.nil_append] at h
      rw [consPre] at h; obtain ⟨-, h⟩ := h
      rw [consPre] at h; obtain ⟨-, h⟩ := h
      rw [consPre] at h
      exact absurd h.1 (by decide)
    · simp only [List.cons_append, List.nil_append] at h
      rw [consPre] at h; obtain ⟨-, h⟩ := h
      rw [consPre] at h; obtain ⟨-, h⟩ := h
      rw [consPre] at h; obtain ⟨-, h⟩ := h
      rw [consPre] at h; obtain ⟨-, h⟩ := h
      rw [consPre] at h
      rw [h.1] at hd
      exact absurd hd (by decide)
    · simp only [List.cons_append] at h
      rw [consPre] at h; obtain ⟨hx, h⟩ := h
      rw [consPre] at h; obtain ⟨hy, h⟩ := h
      rw [consPre] at h; obtain ⟨hz, h⟩ := h
      rw [consPre] at h; obtain ⟨hw, -⟩ := h
      apply hs 1
      show phPat <+: (x :: y :: z :: w :: s4).drop 1
      rw [show (x :: y :: z :: w :: s4).drop 1 = y :: z :: w :: s4 from rfl,
        ← hy, ← hz, ← hw]
      exact ⟨s4, rfl⟩

theorem noPreB2 {d : Char} (hd : d.isDigit = true) (c₂ : Nat)
    (P : List (List Char × List Char)) (last : List Char)
    (hcl : cleanOf phPat (textOf P last)) (W : List Char) :
    ¬ ('P' :: 'H' :: '_' :: d :: W <+: maskedOf c₂ P last) := by
  intro h
  cases P with
  | nil =>
    simp only [maskedOf] at h
    exact hcl 0 (List.IsPrefix.trans ⟨d :: W, rfl⟩ (by simpa using h))
  | cons p ps =>
    obtain ⟨s, o⟩ := p
    obtain ⟨hs, -⟩ := cleanMaskedPieces hcl
    have hshape : maskedOf c₂ ((s, o) :: ps) last =
        s ++ ('_' :: '_' :: 'P' :: 'H' :: '_' ::
          ((natDigits c₂ ++ ['_', '_']) ++ maskedOf (c₂ + 1) ps last)) := by
      simp [maskedOf, phToken]
    rw [hshape] at h
    rcases s with _ | ⟨x, _ | ⟨y, _ | ⟨z, s3⟩⟩⟩
    · rw [List.nil_append, consPre] at h
      exact absurd h.1 (by decide)
    · simp only [List.cons_append, List.nil_append] at h
      rw [consPre] at h; obtain ⟨-, h⟩ := h
      rw [consPre] at h
      exact absurd h.1 (by decide)
    · simp only [List.cons_append, List.nil_append] at h
      rw [consPre] at h; obtain ⟨-, h⟩ := h
      rw [consPre] at h; obtain ⟨-, h⟩ := h
      rw [consPre] at h; obtain ⟨-, h⟩ := h
      rw [consPre] at h
      rw [h.1] at hd
      exact absurd hd (by decide)
    · simp only [List.cons_append] at h
      rw [consPre] at h; obtain ⟨hx, h⟩ := h
      rw [consPre] at h; obtain ⟨hy, h⟩ := h
      rw [consPre] at h; obtain ⟨hz, -⟩ := h
      apply hs 0
      show phPat <+: (x :: y :: z :: s3).drop 0
      rw [List.drop_zero, ← hx, ← hy, ← hz]
      exact ⟨s3, rfl⟩

theorem inTok {c c' c₂ : Nat} {δ : Nat} (h1 : 1 ≤ δ)
    {P : List (List Char × List Char)} {last : List Char}
    (hcl : cleanOf phPat (textOf P last))
    (hM0 : ¬ phToken c <+: maskedOf c₂ P last) :
    ¬ (phToken c <+: (phToken c').drop δ ++ maskedOf c₂ P last) := by
  intro h
  rcases le_or_lt (phToken c).length ((phToken c').drop δ).length with hl | hl
  · have hp := preSplitLow h hl
    have hshape : phToken c =
        '_' :: '_' :: 'P' :: ('H' :: '_' :: (natDigits c ++ ['_', '_'])) := rfl
    rw [hshape] at hp
    exact dropTokNoStartP c' δ h1 _ hp
  · obtain ⟨hpre, hdrop⟩ := preSplitHigh h (le_of_lt hl)
    rcases Nat.lt_or_ge ((phToken c').drop δ).length 3 with h3 | h3
    · obtain ⟨d, ds, hds⟩ := List.exists_cons_of_ne_nil (natDigitsNeNil c)
      have hdig : d.isDigit = true :=
        natDigitsDigits c d (by rw [hds]; exact List.mem_cons_self d ds)
      have hn3 : ((phToken c').drop δ).length = 0 ∨ ((phToken c').drop δ).length = 1 ∨
          ((phToken c').drop δ).length = 2 := by omega
      rcases hn3 with hn | hn | hn
      · rw [hn, List.drop_zero] at hdrop
        exact hM0 hdrop
      · rw [hn, show (phToken c).drop 1 =
            '_' :: 'P' :: 'H' :: '_' :: (natDigits c ++ ['_', '_']) from rfl, hds,
          List.cons_append] at hdrop
        exact noPreB1 hdig c₂ P last hcl _ hdrop
      · rw [hn, show (phToken c).drop 2 =
            'P' :: 'H' :: '_' :: (natDigits c ++ ['_', '_']) from rfl, hds,
          List.cons_append] at hdrop
        exact noPreB2 hdig c₂ P last hcl _ hdrop
    · have heq := preTakeEq hpre
      obtain ⟨k3, hk3⟩ : ∃ k3, ((phToken c').drop δ).length = k3 + 3 :=
        ⟨((phToken c').drop δ).length - 3, by omega⟩
      rw [hk3] at heq
      have htake : (phToken c).take (k3 + 3) =
          '_' :: '_' :: 'P' :: (('H' :: '_' :: (natDigits c ++ ['_', '_'])).take k3) := rfl
      rw [htake] at heq
      apply dropTokNoStartP c' δ h1 (('H' :: '_' :: (natDigits c ++ ['_', '_'])).take k3)
      rw [← heq]

theorem noOccMasked :
    ∀ (P : List (List Char × List Char)) (c' c : Nat) (last : List Char),
      c < c' → cleanOf phPat (textOf P last) →
      ∀ i, ¬ phToken c <+: (maskedOf c' P last).drop i := by
  intro P
  induction P with
  | nil =>
    intro c' c last _ hcl i h
    simp only [maskedOf] at h
    have h2 := occPatDrop h
    rw [List.drop_drop] at h2
    exact hcl _ h2
  | cons p ps ih =>
    intro c' c last hlt hcl i h
    obtain ⟨s, o⟩ := p
    obtain ⟨hs, hps⟩ := cleanMaskedPieces hcl
    have hmask : maskedOf c' ((s, o) :: ps) last =
        s ++ (phToken c' ++ maskedOf (c' + 1) ps last) := by
      simp [maskedOf]
    rw [hmask] at h
    rcases Nat.lt_or_ge i s.length with hi | hi
    · rw [List.drop_append_eq_append_drop, Nat.sub_eq_zero_of_le (le_of_lt hi),
        List.drop_zero] at h
      have hane : s.drop i ≠ [] := by
        intro hnil
        have := congrArg List.length hnil
        simp at this
        omega
      have hshape : phToken c' ++ maskedOf (c' + 1) ps last =
          '_' :: '_' :: 'P' :: 'H' :: '_' ::
            ((natDigits c' ++ ['_', '_']) ++ maskedOf (c' + 1) ps last) := by
        simp [phToken]
      rw [hshape] at h
      exact segStart hane (cleanDrop hs i) c _ h
    · rw [List.drop_append_eq_append_drop, List.drop_eq_nil_of_le hi,
        List.nil_append] at h
      rcases Nat.eq_zero_or_pos (i - s.length) with hj0 | hjpos
      · rw [hj0, List.drop_zero] at h
        exact tokNoPre (Nat.ne_of_lt hlt) _ h
      · rcases Nat.lt_or_ge (i - s.length) (phToken c').length with hjlen | hjlen
        · rw [List.drop_append_eq_append_drop,
            Nat.sub_eq_zero_of_le (le_of_lt hjlen), List.drop_zero] at h
          exact inTok hjpos hps
            (by simpa using ih (c' + 1) c last (by omega) hps 0) h
        · rw [List.drop_append_eq_append_drop, List.drop_eq_nil_of_le hjlen,
            List.nil_append] at h
          exact ih (c' + 1) c last (by omega) hps _ h

/-! ### str.replace behaviour -/

theorem replaceAllFInv (key rep : List Char) :
    ∀ f1 f2 (s : List Char), s.length ≤ f1 → s.length ≤ f2 →
      replaceAllF key rep f1 s = replaceAllF key rep f2 s := by
  intro f1
  induction f1 with
  | zero =>
    intro f2 s h1 _
    have : s = [] := by cases s <;> simp_all
    subst this
    cases f2 <;> rfl
  | succ f ih =>
    intro f2 s h1 h2
    cases s with
    | nil => cases f2 <;> rfl
    | cons c t =>
      cases f2 with
      | zero => simp at h2
      | succ f2' =>
        simp only [replaceAllF]
        by_cases hc : key ≠ [] ∧ key.isPrefixOf (c :: t)
        · rw [if_pos hc, if_pos hc]
          congr 1
          have hk : 1 ≤ key.length := by
            cases hk2 : key with
            | nil => exact absurd hk2 hc.1
            | cons a b => simp
          apply ih
          · simp only [List.length_drop, List.length_cons] at h1 ⊢
            omega
          · simp only [List.length_drop, List.length_cons] at h2 ⊢
            omega
        · rw [if_neg hc, if_neg hc]
          congr 1
          apply ih
          · simp only [List.length_cons] at h1; omega
          · simp only [List.length_cons] at h2; omega

theorem replaceAllFNoOcc (key rep : List Char) :
    ∀ fuel (s : List Char), s.length ≤ fuel → (∀ i, ¬ key <+: s.drop i) →
      replaceAllF key rep fuel s = s := by
  intro fuel
  induction fuel with
  | zero =>
    intro s h1 _
    have : s = [] := by cases s <;> simp_all
    subst this
    rfl
  | succ f ih =>
    intro s h1 hocc
    cases s with
    | nil => rfl
    | cons c t =>
      simp only [replaceAllF]
      rw [if_neg]
      · congr 1
        apply ih
        · simp only [List.length_cons] at h1; omega
        · intro i
          have := hocc (i + 1)
          rwa [List.drop_succ_cons] at this
      · rintro ⟨-, hpf⟩
        exact hocc 0 (by simpa using isPreB.mp hpf)

theorem replaceAllNoOcc {s key rep : List Char} (h : ∀ i, ¬ key <+: s.drop i) :
    replaceAll s key rep = s :=
  replaceAllFNoOcc key rep s.length s le_rfl h

theorem replaceAllFHead {key rep s : List Char} (hkey : key ≠ []) (hpf : key <+: s)
    (fuel : Nat) :
    replaceAllF key rep (fuel + 1) s = rep ++ replaceAllF key rep fuel (s.drop key.length) := by
  cases s with
  | nil =>
    obtain ⟨u, hu⟩ := hpf
    exact absurd (List.append_eq_nil.mp hu).1 hkey
  | cons c t =>
    simp only [replaceAllF]
    rw [if_pos ⟨hkey, isPreB.mpr hpf⟩]

theorem replaceAllFSkip {key rep : List Char} {c : Char} {t : List Char}
    (hnot : ¬ key <+: c :: t) (fuel : Nat) :
    replaceAllF key rep (fuel + 1) (c :: t) = c :: replaceAllF key rep fuel t := by
  simp only [replaceAllF]
  rw [if_neg]
  rintro ⟨-, hb⟩
  exact hnot (isPreB.mp hb)

theorem replaceAllFSlot (key rep : List Char) (hkey : key ≠ []) :
    ∀ (A : List Char) (fuel : Nat) (B : List Char), (A ++ key ++ B).length ≤ fuel →
      (∀ i < A.length, ¬ key <+: (A ++ key ++ B).drop i) →
      replaceAllF key rep fuel (A ++ key ++ B) = A ++ rep ++ replaceAll B key rep := by
  intro A
  induction A with
  | nil =>
    intro fuel B hlen _
    have hk1 : 1 ≤ key.length := by
      cases hk2 : key with
      | nil => exact absurd hk2 hkey
      | cons a b => simp
    cases fuel with
    | zero =>
      simp only [List.nil_append, List.length_append] at hlen
      omega
    | succ f =>
      rw [List.nil_append, replaceAllFHead hkey ⟨B, rfl⟩ f, List.drop_left]
      rw [replaceAllFInv key rep f B.length B
        (by simp only [List.nil_append, List.length_append] at hlen; omega) le_rfl]
      rfl
  | cons a A' ih =>
    intro fuel B hlen hleft
    cases fuel with
    | zero =>
      simp only [List.cons_append, List.length_cons] at hlen
      omega
    | succ f =>
      have hshape : (a :: A') ++ key ++ B = a :: (A' ++ key ++ B) := by simp
      rw [hshape]
      rw [replaceAllFSkip (by
        have := hleft 0 (by simp)
        rwa [List.drop_zero, hshape] at this) f]
      rw [ih f B
        (by simp only [List.cons_append, List.length_cons] at hlen ⊢; omega)
        (by
          intro i hi
          have := hleft (i + 1) (by simp only [List.length_cons]; omega)
          rwa [hshape, List.drop_succ_cons] at this)]
      simp

theorem replaceAllSlot {key rep A B : List Char} (hkey : key ≠ [])
    (hleft : ∀ i < A.length, ¬ key <+: (A ++ key ++ B).drop i) :
    replaceAll (A ++ key ++ B) key rep = A ++ rep ++ replaceAll B key rep :=
  replaceAllFSlot key rep hkey A (A ++ key ++ B).length B le_rfl hleft

theorem phTokenNeNil (c : Nat) : phToken c ≠ [] := by simp [phToken]

/-! ### The unmask pass undoes the mask pass on collision-free text -/

theorem unmaskFold :
    ∀ (P : List (List Char × List Char)) (c : Nat) (pre last : List Char),
      cleanOf phPat (pre ++ textOf P last) →
      unmask_placeholders (pre ++ maskedOf c P last) (mapOf c P) = pre ++ textOf P last := by
  intro P
  induction P with
  | nil =>
    intro c pre last _
    simp [unmask_placeholders, mapOf, maskedOf, textOf]
  | cons p ps ih =>
    intro c pre last hcl
    obtain ⟨s, o⟩ := p
    have hclA : cleanOf phPat (pre ++ textOf ((s, o) :: ps) last) := hcl
    have hassoc : pre ++ textOf ((s, o) :: ps) last =
        (pre ++ s) ++ (o ++ textOf ps last) := by
      simp [textOf]
    have hcleanA : cleanOf phPat (pre ++ s) := cleanAppL (by rw [← hassoc]; exact hclA)
    have hcleanPs : cleanOf phPat (textOf ps last) :=
      cleanAppR (cleanAppR (by rw [← hassoc]; exact hclA))
    have hmask1 : pre ++ maskedOf c ((s, o) :: ps) last =
        (pre ++ s) ++ phToken c ++ maskedOf (c + 1) ps last := by
      simp [maskedOf]
    have hmap : mapOf c ((s, o) :: ps) = (phToken c, o) :: mapOf (c + 1) ps := rfl
    have hleft : ∀ i < (pre ++ s).length,
        ¬ phToken c <+: ((pre ++ s) ++ phToken c ++ maskedOf (c + 1) ps last).drop i := by
      intro i hi hocc
      rw [List.append_assoc, List.drop_append_eq_append_drop,
        Nat.sub_eq_zero_of_le (le_of_lt hi), List.drop_zero] at hocc
      have hane : (pre ++ s).drop i ≠ [] := by
        intro hnil
        have := congrArg List.length hnil
        simp only [List.length_drop, List.length_nil] at this
        omega
      have hshape : phToken c ++ maskedOf (c + 1) ps last =
          '_' :: '_' :: 'P' :: 'H' :: '_' ::
            ((natDigits c ++ ['_', '_']) ++ maskedOf (c + 1) ps last) := by
        simp [phToken]
      rw [hshape] at hocc
      exact segStart hane (cleanDrop hcleanA i) c _ hocc
    have hstep : replaceAll (pre ++ maskedOf c ((s, o) :: ps) last) (phToken c) o =
        (pre ++ s ++ o) ++ maskedOf (c + 1) ps last := by
      rw [hmask1, replaceAllSlot (phTokenNeNil c) hleft,
        replaceAllNoOcc (fun i => noOccMasked ps (c + 1) c last (by omega) hcleanPs i)]
    have hfold : unmask_placeholders (pre ++ maskedOf c ((s, o) :: ps) last)
        ((phToken c, o) :: mapOf (c + 1) ps) =
        unmask_placeholders
          (replaceAll (pre ++ maskedOf c ((s, o) :: ps) last) (phToken c) o)
          (mapOf (c + 1) ps) := rfl
    rw [hmap, hfold, hstep]
    have hclean2 : cleanOf phPat ((pre ++ s ++ o) ++ textOf ps last) := by
      have : (pre ++ s ++ o) ++ textOf ps last = pre ++ textOf ((s, o) :: ps) last := by
        simp [textOf]
      rw [this]
      exact hclA
    rw [ih (c + 1) (pre ++ s ++ o) last hclean2]
    simp [textOf]

/-! ### Shape of the mask output -/

theorem orElsePos {o₁ o₂ : Option Nat} {L : Nat} (h : (o₁ <|> o₂) = some L) :
    o₁ = some L ∨ (o₁ = none ∧ o₂ = some L) := by
  cases o₁ <;> simp_all

theorem matchFmtPos : ∀ {l : List Char} {L : Nat}, matchFmt l = some L → 2 ≤ L := by
  intro l L h
  rw [matchFmt.eq_def] at h
  split at h
  · simp only at h
    rcases orElsePos h with h1 | ⟨-, h1⟩
    · split at h1
      · split at h1
        · split at h1
          · injection h1 with h2; omega
          · cases h1
        · cases h1
      · cases h1
    · split at h1
      · split at h1
        · injection h1 with h2; omega
        · cases h1
      · cases h1
  · cases h

theorem matchBracePos : ∀ {l : List Char} {L : Nat}, matchBrace l = some L → 2 ≤ L := by
  intro l L h
  rw [matchBrace.eq_def] at h
  split at h
  · simp only at h
    split at h
    · injection h with h2
      omega
    · cases h
  · cases h

theorem matchDollarPos : ∀ {l : List Char} {L : Nat}, matchDollar l = some L → 2 ≤ L := by
  intro l L h
  rw [matchDollar.eq_def] at h
  split at h
  · simp only at h
    split at h
    · injection h with h2
      omega
    · cases h
  · cases h

theorem matchEscPos : ∀ {l : List Char} {L : Nat}, matchEsc l = some L → 2 ≤ L := by
  intro l L h
  rw [matchEsc.eq_def] at h
  split at h
  · split at h
    · injection h with h2
      omega
    · cases h
  · cases h

theorem matchPHPos {l : List Char} {L : Nat} (h : matchPH l = some L) : 2 ≤ L := by
  rw [matchPH] at h
  rcases orElsePos h with h1 | ⟨-, h1⟩
  · exact matchFmtPos h1
  rcases orElsePos h1 with h2 | ⟨-, h2⟩
  · exact matchBracePos h2
  rcases orElsePos h2 with h3 | ⟨-, h3⟩
  · exact matchDollarPos h3
  · exact matchEscPos h3

theorem matchPHNil : matchPH [] = none := rfl

theorem maskShape :
    ∀ (fuel : Nat) (l : List Char) (c : Nat), l.length ≤ fuel →
      ∃ P last, maskAuxF fuel l c = (maskedOf c P last, mapOf c P) ∧ l = textOf P last := by
  intro fuel
  induction fuel with
  | zero =>
    intro l c hl
    have : l = [] := by cases l <;> simp_all
    subst this
    exact ⟨[], [], rfl, rfl⟩
  | succ f ih =>
    intro l c hl
    rcases hm : matchPH l with _ | L
    · cases l with
      | nil => exact ⟨[], [], by simp [maskAuxF, hm, maskedOf, mapOf], rfl⟩
      | cons ch rest =>
        obtain ⟨P', last', h1, h2⟩ := ih rest c
          (by simp only [List.length_cons] at hl; omega)
        cases P' with
        | nil =>
          refine ⟨[], ch :: last', ?_, ?_⟩
          · simp only [maskAuxF, hm, h1, maskedOf, mapOf]
          · simp only [textOf] at h2 ⊢
            rw [h2]
        | cons q ps =>
          obtain ⟨s, o⟩ := q
          refine ⟨(ch :: s, o) :: ps, last', ?_, ?_⟩
          · simp only [maskAuxF, hm, h1, maskedOf, mapOf, List.cons_append]
          · simp only [textOf, List.cons_append] at h2 ⊢
            rw [h2]
    · have hL : 2 ≤ L := matchPHPos hm
      have hlne : l ≠ [] := by
        intro hnil
        rw [hnil, matchPHNil] at hm
        cases hm
      have hlen1 : 1 ≤ l.length := by
        cases l with
        | nil => exact absurd rfl hlne
        | cons a b => simp
      obtain ⟨P', last', h1, h2⟩ := ih (l.drop L) (c + 1)
        (by simp only [List.length_drop]; omega)
      refine ⟨([], l.take L) :: P', last', ?_, ?_⟩
      · simp only [maskAuxF, hm, h1, maskedOf, mapOf, List.nil_append]
      · conv_lhs => rw [← List.take_append_drop L l]
        rw [h2]
        simp [textOf]

/-- C2 (amended): the masking round-trip restores the original text for every
text that contains no occurrence of the substring `PH_`, the collision-prone
core of the synthetic tokens; the claim's unconditional form is refuted by
`C2_roundtrip_failure`. -/
theorem C2_roundtrip_amended (t : List Char) (h : hasSubB phPat t = false) :
    unmask_placeholders (mask_placeholders t).1 (mask_placeholders t).2 = t := by
  obtain ⟨P, last, h1, h2⟩ := maskShape t.length t 0 le_rfl
  have hcl : cleanOf phPat t := cleanOfIff.mpr h
  have hmain := unmaskFold P 0 [] last
    (by rw [List.nil_append, ← h2]; exact hcl)
  rw [List.nil_append, List.nil_append] at hmain
  simp only [mask_placeholders, h1]
  rw [hmain, ← h2]

/-- C2 (counterexample): for the text `\n __PH_0__` the escape `\n` is masked
by the token `__PH_0__`, which already occurs literally in the text, so
unmasking replaces both occurrences and the round-trip law fails. -/
theorem C2_roundtrip_failure :
    unmask_placeholders (mask_placeholders "\\n __PH_0__".toList).1
        (mask_placeholders "\\n __PH_0__".toList).2 ≠ "\\n __PH_0__".toList := by
  decide

/-- Witness for `C2_roundtrip_amended` at a concrete placeholder-bearing string. -/
theorem C2_roundtrip_amended_witness :
    hasSubB phPat "Error: %s at line %d".toList = false ∧
      unmask_placeholders (mask_placeholders "Error: %s at line %d".toList).1
        (mask_placeholders "Error: %s at line %d".toList).2 =
        "Error: %s at line %d".toList :=
  ⟨by decide, C2_roundtrip_amended _ (by decide)⟩

/-! ### C1 / C5: the rewriter under identity translation and under failures -/

theorem flushBufId {tr : List Char → Option (List Char)} {buf : List Char}
    (h : ∀ s ∈ (flushBuf tr buf).2, tr s = some s) : (flushBuf tr buf).1 = buf := by
  by_cases hb : buf = []
  · subst hb; rfl
  · simp only [flushBuf, if_neg hb] at h ⊢
    rw [h buf (by simp)]
    rfl

theorem jgoId (tr : List Char → Option (List Char)) (m : JMode) (esc : Bool)
    (buf l : List Char) :
    (∀ s ∈ (jgo tr m esc buf l).2, tr s = some s) →
    (jgo tr m esc buf l).1 = (if modeKeepsBuf m = true then buf else []) ++ l := by
  induction m, esc, buf, l using jgo.induct tr with
  | case1 a b => intro h; simp [jgo, modeKeepsBuf]
  | case2 a b => intro h; simp [jgo, modeKeepsBuf]
  | case3 a b => intro h; simp [jgo, modeKeepsBuf]
  | case4 a b => intro h; simp [jgo, modeKeepsBuf]
  | case5 a b => intro h; simpa [jgo, modeKeepsBuf] using flushBufId h
  | case6 a b rest ih =>
    intro h
    simp only [jgo] at h ⊢
    rw [ih h]
    simp [modeKeepsBuf]
  | case7 a b rest ih =>
    intro h
    simp only [jgo] at h ⊢
    rw [ih h]
    simp [modeKeepsBuf]
  | case8 a b rest ih =>
    intro h
    simp only [jgo] at h ⊢
    rw [ih h]
    simp [modeKeepsBuf]
  | case9 a b rest ih =>
    intro h
    simp only [jgo] at h ⊢
    rw [ih h]
    simp [modeKeepsBuf]
  | case10 a b rest hneg ih =>
    intro h
    simp only [jgo] at h ⊢
    rw [ih h]
    simp [modeKeepsBuf]
  | case11 esc buf ch rest h1 h2 h3 h4 h5 ih =>
    intro h
    simp only [jgo] at h ⊢
    rw [ih h]
    simp [modeKeepsBuf]
  | case12 esc buf ch rest hcond ih =>
    intro h
    obtain ⟨rfl, rfl⟩ := hcond
    simp only [jgo] at h ⊢
    rw [if_pos (by simp)] at h ⊢
    have hf := flushBufId (fun s hs => h s (List.mem_append_left _ hs))
    have hr := ih (fun s hs => h s (List.mem_append_right _ hs))
    rw [hf, hr]
    simp [modeKeepsBuf]
  | case13 esc buf ch rest hncond ih =>
    intro h
    simp only [jgo] at h ⊢
    rw [if_neg hncond] at h ⊢
    rw [ih h]
    simp [modeKeepsBuf]
  | case14 esc buf ch rest hcond ih =>
    intro h
    obtain ⟨rfl, rfl⟩ := hcond
    simp only [jgo] at h ⊢
    rw [if_pos (by simp)] at h ⊢
    rw [ih h]
    simp [modeKeepsBuf]
  | case15 esc buf ch rest hncond ih =>
    intro h
    simp only [jgo] at h ⊢
    rw [if_neg hncond] at h ⊢
    rw [ih h]
    simp [modeKeepsBuf]
  | case16 a b rest ih =>
    intro h
    simp only [jgo] at h ⊢
    have hf := flushBufId (fun s hs => h s (List.mem_append_left _ hs))
    have hr := ih (fun s hs => h s (List.mem_append_right _ hs))
    rw [hf, hr]
    simp [modeKeepsBuf]
  | case17 esc buf ch rest hneg ih =>
    intro h
    simp only [jgo] at h ⊢
    rw [ih h]
    simp [modeKeepsBuf]
  | case18 a b rest ih =>
    intro h
    simp only [jgo] at h ⊢
    have hf := flushBufId (fun s hs => h s (List.mem_append_left _ hs))
    have hr := ih (fun s hs => h s (List.mem_append_right _ hs))
    rw [hf, hr]
    simp [modeKeepsBuf]
  | case19 esc buf ch rest hneg ih =>
    intro h
    simp only [jgo] at h ⊢
    rw [ih h]
    simp [modeKeepsBuf]

/-- C1: if the string translator returns every submitted span content
unchanged, JavaTranslator.translate returns the input byte-identically:
every code byte, delimiter, char literal and unterminated tail is reproduced
in order. -/
theorem C1_identity_lossless (text : List Char) (tr : List Char → Option (List Char))
    (h : ∀ s ∈ (javaTranslate tr text).2, tr s = some s) :
    (javaTranslate tr text).1 = text := by
  have := jgoId tr .normal false [] text h
  simpa [modeKeepsBuf, javaTranslate] using this

/-- Witness for `C1_identity_lossless` on a text exercising every span kind. -/
theorem C1_identity_lossless_witness :
    (javaTranslate some
        "int c = 'x'; String s = \"a\\\"b\"; /* doc */ // tail".toList).1 =
      "int c = 'x'; String s = \"a\\\"b\"; /* doc */ // tail".toList :=
  C1_identity_lossless _ some (fun _ _ => rfl)

theorem flushBufTot (tr : List Char → Option (List Char)) (buf : List Char) :
    flushBuf tr buf = flushBuf (fun s => some ((tr s).getD s)) buf := by
  by_cases hb : buf = [] <;> simp [flushBuf, hb]

theorem jgoTot (tr : List Char → Option (List Char)) (m : JMode) (esc : Bool)
    (buf l : List Char) :
    jgo tr m esc buf l = jgo (fun s => some ((tr s).getD s)) m esc buf l := by
  induction m, esc, buf, l using jgo.induct tr with
  | case1 a b => rfl
  | case2 a b => rfl
  | case3 a b => rfl
  | case4 a b => rfl
  | case5 a b => simpa only [jgo] using flushBufTot tr b
  | case6 a b rest ih => simp only [jgo]; rw [ih]
  | case7 a b rest ih => simp only [jgo]; rw [ih]
  | case8 a b rest ih => simp only [jgo]; rw [ih]
  | case9 a b rest ih => simp only [jgo]; rw [ih]
  | case10 a b rest hneg ih => simp only [jgo]; rw [ih]
  | case11 esc buf ch rest h1 h2 h3 h4 h5 ih => simp only [jgo]; rw [ih]
  | case12 esc buf ch rest hcond ih =>
    obtain ⟨rfl, rfl⟩ := hcond
    simp only [jgo]
    rw [if_pos (by simp), if_pos (by simp), ih, flushBufTot tr buf]
  | case13 esc buf ch rest hncond ih =>
    simp only [jgo]
    rw [if_neg hncond, if_neg hncond, ih]
  | case14 esc buf ch rest hcond ih =>
    obtain ⟨rfl, rfl⟩ := hcond
    simp only [jgo]
    rw [if_pos (by simp), if_pos (by simp), ih]
  | case15 esc buf ch rest hncond ih =>
    simp only [jgo]
    rw [if_neg hncond, if_neg hncond, ih]
  | case16 a b rest ih =>
    simp only [jgo]
    rw [ih, flushBufTot tr b]
  | case17 esc buf ch rest hneg ih => simp only [jgo]; rw [ih]
  | case18 a b rest ih =>
    simp only [jgo]
    rw [ih, flushBufTot tr b]
  | case19 esc buf ch rest hneg ih => simp only [jgo]; rw [ih]

/-- C5: a span whose translation raises behaves exactly like a span whose
translation returns the original content — the rewriter substitutes the
original, continues with the remaining spans and produces the same complete
output; and a file routed through a translator built on `javaTranslate`
(which is total) ends in outcome `translated` with no error increment. -/
theorem C5_span_failure_containment (tr : List Char → Option (List Char))
    (text : List Char) :
    javaTranslate tr text = javaTranslate (fun s => some ((tr s).getD s)) text ∧
      (∀ e : RouteEnv, e.srcIsFile = true → e.dstExists = false →
        e.hasTranslator = true → e.readResult = some text → pyStrip text ≠ [] →
        e.writeOk = true →
        e.translateResult = (fun t => some ((javaTranslate tr t).1)) →
        (route_and_process_file e).dError = 0 ∧
          (route_and_process_file e).outcome = RouteOutcome.translated ∧
          (route_and_process_file e).dstWritten = some ((javaTranslate tr text).1)) := by
  constructor
  · exact jgoTot tr .normal false [] text
  · intro e h1 h2 h3 h4 h5 h6 h7
    simp [route_and_process_file, h1, h2, h3, h4, h5, h6, h7]

/-- Witness for `C5_span_failure_containment`: an always-raising translator
still yields a complete, byte-identical output and a `translated` outcome. -/
theorem C5_span_failure_containment_witness :
    javaTranslate (fun _ => none) "// a\n\"b\"".toList =
        javaTranslate (fun s => some (((fun _ => none : List Char →
          Option (List Char)) s).getD s)) "// a\n\"b\"".toList ∧
      (route_and_process_file
          ⟨true, false, true, "// a\n\"b\"".toList, some "// a\n\"b\"".toList,
            fun t => some ((javaTranslate (fun _ => none) t).1), true, true⟩).dError = 0 :=
  ⟨(C5_span_failure_containment (fun _ => none) "// a\n\"b\"".toList).1,
    ((C5_span_failure_containment (fun _ => none) "// a\n\"b\"".toList).2 _
      rfl rfl rfl rfl (by decide) rfl rfl).1⟩

/-- C3 (counterexample): a file whose destination already exists but whose
extension has no registered translator is copied — the source is read and the
existing destination is overwritten — rather than skipped. -/
theorem C3_resume_counterexample :
    (route_and_process_file
        ⟨true, true, false, "data".toList, some "data".toList,
          fun _ => none, true, true⟩).outcome = RouteOutcome.copied ∧
      (route_and_process_file
        ⟨true, true, false, "data".toList, some "data".toList,
          fun _ => none, true, true⟩).srcRead = true ∧
      (route_and_process_file
        ⟨true, true, false, "data".toList, some "data".toList,
          fun _ => none, true, true⟩).dstWritten = some "data".toList := by
  decide

/-- C3 (amended): when the destination exists AND a translator is registered
for the extension, the router skips the file: the source is not read, the
destination is untouched, and only the skipped counter is incremented. -/
theorem C3_resume_amended (e : RouteEnv) (h1 : e.srcIsFile = true)
    (h2 : e.dstExists = true) (h3 : e.hasTranslator = true) :
    (route_and_process_file e).outcome = RouteOutcome.skippedResume ∧
      (route_and_process_file e).srcRead = false ∧
      (route_and_process_file e).dstWritten = none ∧
      (route_and_process_file e).dSkipped = 1 ∧
      (route_and_process_file e).dTranslated = 0 ∧
      (route_and_process_file e).dError = 0 := by
  simp [route_and_process_file, h1, h2, h3]

/-- Witness for `C3_resume_amended` at a concrete environment. -/
theorem C3_resume_amended_witness :
    (route_and_process_file
        ⟨true, true, true, "x".toList, some "x".toList,
          fun t => some t, true, true⟩).outcome = RouteOutcome.skippedResume ∧
      (route_and_process_file
        ⟨true, true, true, "x".toList, some "x".toList,
          fun t => some t, true, true⟩).srcRead = false :=
  ⟨(C3_resume_amended _ rfl rfl rfl).1, (C3_resume_amended _ rfl rfl rfl).2.1⟩

/-! ### C4: end-of-input asymmetry of the scanner -/

theorem jgoLineCont (tr : List Char → Option (List Char)) (esc : Bool) (b : List Char)
    (c : Char) (rest : List Char) (hc : ¬ c = '\n') :
    jgo tr .lineComment esc b (c :: rest) =
      jgo tr .lineComment (if c = '\\' then !esc else false) (b ++ [c]) rest := by
  simp only [jgo]

theorem jgoBlockCont (tr : List Char → Option (List Char)) (esc : Bool) (b : List Char)
    (c : Char) (rest : List Char)
    (hc : ∀ (r' : List Char), c = '*' → rest = '/' :: r' → False) :
    jgo tr .blockComment esc b (c :: rest) =
      jgo tr .blockComment (if c = '\\' then !esc else false) (b ++ [c]) rest := by
  simp only [jgo]

theorem noCloseCont (c : Char) (rest : List Char)
    (hc : ∀ (r' : List Char), c = '*' → rest = '/' :: r' → False) :
    noClose (c :: rest) = noClose rest := by
  simp only [noClose]

theorem jgoBlockStay (tr : List Char → Option (List Char)) :
    ∀ (u : List Char) (esc : Bool) (b : List Char), noClose u = true →
      jgo tr .blockComment esc b u = (b ++ u, []) := by
  intro u
  induction u with
  | nil => intro esc b _; simp [jgo]
  | cons c rest ih =>
    intro esc b h
    have hc : ∀ (r' : List Char), c = '*' → rest = '/' :: r' → False := by
      intro r' h1 h2
      rw [h1, h2] at h
      simp [noClose] at h
    have hrest : noClose rest = true := by
      rw [← noCloseCont c rest hc]
      exact h
    rw [jgoBlockCont tr esc b c rest hc, ih _ _ hrest]
    simp

theorem jgoStrStay (tr : List Char → Option (List Char)) :
    ∀ (esc : Bool) (u : List Char) (b : List Char), strOpen esc u = true →
      jgo tr .jstring esc b u = (b ++ u, []) := by
  intro esc u
  induction esc, u using strOpen.induct with
  | case1 esc => intro b _; simp [jgo]
  | case2 esc c rest hcond =>
    intro b h
    simp only [strOpen] at h
    rw [if_pos hcond] at h
    cases h
  | case3 esc c rest hncond ih =>
    intro b h
    simp only [strOpen] at h
    rw [if_neg hncond] at h
    simp only [jgo]
    rw [if_neg hncond, ih _ h]
    simp

theorem jgoLineStay (tr : List Char → Option (List Char)) :
    ∀ (u : List Char) (esc : Bool) (b : List Char), ('\n' ∈ u → False) →
      jgo tr .lineComment esc b u = flushBuf tr (b ++ u) := by
  intro u
  induction u with
  | nil => intro esc b _; simp [jgo]
  | cons c rest ih =>
    intro esc b hnm
    have hc : ¬ c = '\n' := fun hh => hnm (by rw [hh]; exact List.mem_cons_self _ _)
    rw [jgoLineCont tr esc b c rest hc,
      ih _ _ (fun hm => hnm (List.mem_cons_of_mem _ hm))]
    simp

/-- C4: end-of-input asymmetry.  If the scan is inside a block comment that
never closes, or inside a string literal that never closes, everything up to
end-of-input is emitted verbatim after the buffered content and nothing is
submitted to the translator — in particular `/* unfinished` and
`"unfinished` come back byte-identical with an empty submission list.  If
end-of-input is reached inside a line comment, the accumulated content IS
submitted and the translation result emitted. -/
theorem C4_eof_asymmetry (tr : List Char → Option (List Char)) :
    (∀ (u : List Char) (esc : Bool) (b : List Char), noClose u = true →
        jgo tr .blockComment esc b u = (b ++ u, [])) ∧
      (∀ (esc : Bool) (u b : List Char), strOpen esc u = true →
        jgo tr .jstring esc b u = (b ++ u, [])) ∧
      (∀ (u t : List Char), u ≠ [] → ('\n' ∈ u → False) → tr u = some t →
        jgo tr .lineComment false [] u = (t, [u])) ∧
      javaTranslate tr "/* unfinished".toList = ("/* unfinished".toList, []) ∧
      javaTranslate tr "\"unfinished".toList = ("\"unfinished".toList, []) ∧
      (∀ t, tr " tail".toList = some t →
        javaTranslate tr "// tail".toList = ('/' :: '/' :: t, [" tail".toList])) := by
  refine ⟨jgoBlockStay tr, jgoStrStay tr, ?_, ?_, ?_, ?_⟩
  · intro u t hne hnm htr
    rw [jgoLineStay tr u false [] hnm]
    simp [flushBuf, hne, htr]
  · have h1 : javaTranslate tr "/* unfinished".toList =
        ('/' :: '*' :: (jgo tr .blockComment false [] " unfinished".toList).1,
          (jgo tr .blockComment false [] " unfinished".toList).2) := rfl
    rw [h1, jgoBlockStay tr _ _ _ (by decide)]
    decide
  · have h1 : javaTranslate tr "\"unfinished".toList =
        ('"' :: (jgo tr .jstring false [] "unfinished".toList).1,
          (jgo tr .jstring false [] "unfinished".toList).2) := rfl
    rw [h1, jgoStrStay tr _ _ _ (by decide)]
    decide
  · intro t htr
    have h1 : javaTranslate tr "// tail".toList =
        ('/' :: '/' :: (jgo tr .lineComment false [] " tail".toList).1,
          (jgo tr .lineComment false [] " tail".toList).2) := rfl
    rw [h1, jgoLineStay tr _ _ _ (by decide)]
    have htr2 : tr [' ', 't', 'a', 'i', 'l'] = some t := htr
    simp [flushBuf, htr2]

/-- Witness for `C4_eof_asymmetry` at a concrete unterminated block comment. -/
theorem C4_eof_asymmetry_witness :
    jgo (fun _ => none) JMode.blockComment false [] " unfinished".toList =
        (" unfinished".toList, []) ∧
      javaTranslate (fun _ => none) "/* unfinished".toList =
        ("/* unfinished".toList, []) :=
  ⟨by
    have := (C4_eof_asymmetry (fun _ => none)).1 " unfinished".toList false [] (by decide)
    simpa using this,
    (C4_eof_asymmetry (fun _ => none)).2.2.2.1⟩

/-! ### C6: the run-scoped cache is idempotent -/

/-- C6: calling translate_string twice on the same string issues at most one
backend call in total, both calls return the identical result, and the
second call is answered from the cache without invoking the backend. -/
theorem C6_idempotent_cache (client : List Char → List Char)
    (st : List (List Char × List Char)) (s : List Char) :
    (translate_string client (translate_string client st s).2.1 s).1 =
        (translate_string client st s).1 ∧
      (translate_string client (translate_string client st s).2.1 s).2.2 = 0 ∧
      (translate_string client st s).2.2 +
        (translate_string client (translate_string client st s).2.1 s).2.2 ≤ 1 := by
  have key : List.lookup s (translate_string client st s).2.1 =
      some (translate_string client st s).1 := by
    rcases h : List.lookup s st with _ | t
    · by_cases hv : is_human_visible_string s = false
      · simp [translate_string, h, hv, List.lookup]
      · simp [translate_string, h, hv, List.lookup]
    · simp [translate_string, h]
  have h2 : translate_string client (translate_string client st s).2.1 s =
      ((translate_string client st s).1, (translate_string client st s).2.1, 0) := by
    rw [translate_string.eq_def, key]
  rw [h2]
  refine ⟨rfl, rfl, ?_⟩
  rcases h : List.lookup s st with _ | t
  · by_cases hv : is_human_visible_string s = false <;> simp [translate_string, h, hv]
  · simp [translate_string, h]

/-! ### C7: the visibility heuristic applies to the stripped string -/

theorem dwHeadFalse (p : Char → Bool) :
    ∀ (l : List Char) (c : Char), (l.dropWhile p).head? = some c → p c = false := by
  intro l
  induction l with
  | nil => intro c h; cases h
  | cons a t ih =>
    intro c h
    by_cases hp : p a
    · rw [List.dropWhile_cons_of_pos hp] at h
      exact ih c h
    · rw [List.dropWhile_cons_of_neg hp] at h
      injection h with h
      subst h
      simpa using hp

theorem dwSelf (p : Char → Bool) (l : List Char)
    (h : ∀ c, l.head? = some c → p c = false) : l.dropWhile p = l := by
  cases l with
  | nil => rfl
  | cons a t =>
    rw [List.dropWhile_cons_of_neg]
    simp [h a rfl]

theorem dwLast (p : Char → Bool) (l : List Char) (hne : l.dropWhile p ≠ []) :
    (l.dropWhile p).getLast? = l.getLast? := by
  conv_rhs => rw [← List.takeWhile_append_dropWhile (p := p) (l := l)]
  rw [List.getLast?_append_of_ne_nil _ hne]

theorem pyStripIdem (l : List Char) : pyStrip (pyStrip l) = pyStrip l := by
  by_cases h0 : pyStrip l = []
  · rw [h0]; rfl
  · have hps : pyStrip l =
        ((l.dropWhile isPySpace).reverse.dropWhile isPySpace).reverse := rfl
    have hbne : (l.dropWhile isPySpace).reverse.dropWhile isPySpace ≠ [] := by
      intro hh
      apply h0
      rw [hps, hh]
      rfl
    have hhead : ∀ c, (pyStrip l).head? = some c → isPySpace c = false := by
      intro c hc
      rw [hps, List.head?_reverse, dwLast isPySpace _ hbne, List.getLast?_reverse] at hc
      exact dwHeadFalse isPySpace l c hc
    have hlast : ∀ c, (pyStrip l).reverse.head? = some c → isPySpace c = false := by
      intro c hc
      rw [hps, List.reverse_reverse] at hc
      exact dwHeadFalse isPySpace _ c hc
    show (((pyStrip l).dropWhile isPySpace).reverse.dropWhile isPySpace).reverse = pyStrip l
    rw [dwSelf isPySpace _ hhead, dwSelf isPySpace _ hlast, List.reverse_reverse]

theorem pyStripHeadFalse (l : List Char) (c : Char) (hc : (pyStrip l).head? = some c) :
    isPySpace c = false := by
  have hne : pyStrip l ≠ [] := by intro hh; rw [hh] at hc; cases hc
  have hbne : (l.dropWhile isPySpace).reverse.dropWhile isPySpace ≠ [] := by
    intro hh
    apply hne
    show ((l.dropWhile isPySpace).reverse.dropWhile isPySpace).reverse = []
    rw [hh]
    rfl
  have hps : pyStrip l =
      ((l.dropWhile isPySpace).reverse.dropWhile isPySpace).reverse := rfl
  rw [hps, List.head?_reverse, dwLast isPySpace _ hbne, List.getLast?_reverse] at hc
  exact dwHeadFalse isPySpace l c hc

theorem stripAllSpace (s : List Char) :
    ((pyStrip s).all isPySpace) = (pyStrip s).isEmpty := by
  cases h : pyStrip s with
  | nil => simp
  | cons c rest =>
    have := pyStripHeadFalse s c (by rw [h]; rfl)
    simp [List.all_cons, this]

theorem i18nKeyEq (t : List Char) (ht : pyStrip t = t) :
    is_i18n_key_like t = (!t.isEmpty && t.all isAllowedKeyChar) := by
  simp only [is_i18n_key_like, ht]
  by_cases h0 : t = []
  · subst h0; simp
  · by_cases hsp : ' ' ∈ t
    · have hall : t.all isAllowedKeyChar = false := by
        cases hh : t.all isAllowedKeyChar
        · rfl
        · have := List.all_eq_true.mp hh ' ' hsp
          simp [isAllowedKeyChar] at this
      simp [h0, hsp, hall]
    · simp [h0, hsp]

theorem pathEq (t : List Char) (ht : pyStrip t = t) :
    looks_like_path_or_technical t =
      ((t.contains '/' || t.contains '\\') && !(t.contains ' ')) := by
  simp only [looks_like_path_or_technical, ht]
  by_cases h0 : t = []
  · subst h0; simp
  · simp only [h0, if_false]
    by_cases hc : ((t.contains '\\' || t.contains '/') && !(t.contains ' ')) = true
    · rw [if_pos hc]
      rw [Bool.or_comm] at hc
      exact hc.symm
    · rw [if_neg hc]
      rw [Bool.or_comm] at hc
      simp only [Bool.not_eq_true] at hc
      exact hc.symm

theorem visibleIff (s : List Char) :
    is_human_visible_string s = false ↔ claimNotVisible (pyStrip s) = true := by
  have hkey := i18nKeyEq (pyStrip s) (pyStripIdem s)
  have hpath := pathEq (pyStrip s) (pyStripIdem s)
  have hsp := stripAllSpace s
  simp only [is_human_visible_string, claimNotVisible, hkey, hpath, hsp]
  by_cases h0 : pyStrip s = []
  · simp [h0]
  · have hie : (pyStrip s).isEmpty = false := by
      cases hh : pyStrip s with
      | nil => exact absurd hh h0
      | cons a b => simp
    rw [hie] at hkey
    simp only [h0, if_false, hie, Bool.not_false, Bool.true_and, Bool.false_or]
    by_cases hk : (pyStrip s).all isAllowedKeyChar = true
    · simp [hk]
    · simp only [Bool.not_eq_true] at hk
      rw [hk]
      simp only [Bool.false_or, if_false]
      by_cases hp2 : (((pyStrip s).contains '/' || (pyStrip s).contains '\\')
          && !((pyStrip s).contains ' ')) = true
      · simp [hp2]
        tauto
      · simp only [Bool.not_eq_true] at hp2
        rw [hp2]
        simp

/-- C7 (counterexample): the string `" abc "` is not empty or
whitespace-only, not identifier-key-like and not path-like by the claim's
wording (it contains spaces), yet translate_string classifies it not
visible, returns it unchanged with no backend call, and caches the identity
mapping — the heuristic is applied to the stripped string. -/
theorem C7_visibility_counterexample :
    claimNotVisible " abc ".toList = false ∧
      is_human_visible_string " abc ".toList = false ∧
      translate_string (fun m => m) [] " abc ".toList =
        (" abc ".toList, [(" abc ".toList, " abc ".toList)], 0) := by
  decide

/-- C7 (amended): a cache-missing string is classified not visible exactly
when its whitespace-stripped form is empty, identifier-key-like or
path-like; such strings are returned unchanged with no backend call and the
identity mapping cached, and every other string is submitted to the backend
(one call, with the masked text, quote-strip and unmask pipeline). -/
theorem C7_visibility_amended (client : List Char → List Char)
    (st : List (List Char × List Char)) (s : List Char)
    (hmiss : List.lookup s st = none) :
    (is_human_visible_string s = false ↔ claimNotVisible (pyStrip s) = true) ∧
      (claimNotVisible (pyStrip s) = true →
        translate_string client st s = (s, (s, s) :: st, 0)) ∧
      (claimNotVisible (pyStrip s) = false →
        (translate_string client st s).2.2 = 1 ∧
          (translate_string client st s).1 =
            unmask_placeholders
              (stripOuterQuote (pyStrip (client (mask_placeholders s).1)))
              (mask_placeholders s).2) := by
  refine ⟨visibleIff s, ?_, ?_⟩
  · intro h
    have hv : is_human_visible_string s = false := (visibleIff s).mpr h
    simp [translate_string, hmiss, hv]
  · intro h
    have hv : ¬ is_human_visible_string s = false := by
      intro hh
      rw [(visibleIff s).mp hh] at h
      cases h
    refine ⟨?_, ?_⟩ <;> simp [translate_string, hmiss, hv]

/-- Witness for `C7_visibility_amended`: a two-word string is visible and
costs exactly one backend call. -/
theorem C7_visibility_amended_witness :
    claimNotVisible (pyStrip "abc def".toList) = false ∧
      (translate_string (fun m => m) [] "abc def".toList).2.2 = 1 :=
  ⟨by decide,
    ((C7_visibility_amended (fun m => m) [] "abc def".toList rfl).2.2 (by decide)).1⟩

/-- C10: when the whitespace-stripped backend response both begins and ends
with a double quote, or both begins and ends with a single quote,
translate_string removes the first and last characters and re-strips before
unmasking, and caches that result; consequently a response consisting of a
single quote character yields the empty translation, and a translation that
legitimately begins and ends with quotes loses them (see the witness). -/
theorem C10_quote_stripping (client : List Char → List Char)
    (st : List (List Char × List Char)) (s : List Char)
    (hmiss : List.lookup s st = none)
    (hvis : is_human_visible_string s = true)
    (hq : ((pyStrip (client (mask_placeholders s).1)).head? = some '"' ∧
            (pyStrip (client (mask_placeholders s).1)).getLast? = some '"') ∨
          ((pyStrip (client (mask_placeholders s).1)).head? = some '\'' ∧
            (pyStrip (client (mask_placeholders s).1)).getLast? = some '\'')) :
    (translate_string client st s).1 =
        unmask_placeholders
          (pyStrip (((pyStrip (client (mask_placeholders s).1)).drop 1).dropLast))
          (mask_placeholders s).2 ∧
      (translate_string client st s).2.1 =
        (s, (translate_string client st s).1) :: st := by
  have hv : ¬ is_human_visible_string s = false := by rw [hvis]; simp
  have hts : translate_string client st s =
      (unmask_placeholders (stripOuterQuote (pyStrip (client (mask_placeholders s).1)))
          (mask_placeholders s).2,
        (s, unmask_placeholders
          (stripOuterQuote (pyStrip (client (mask_placeholders s).1)))
          (mask_placeholders s).2) :: st, 1) := by
    simp [translate_string, hmiss, hv]
  rw [hts]
  simp only [stripOuterQuote]
  rw [if_pos hq]
  exact ⟨rfl, trivial⟩

/-- Witness for `C10_quote_stripping`: a backend answering a lone `"` makes
the translation empty, and an answer `"Bonjour"` loses its outer quotes. -/
theorem C10_quote_stripping_witness :
    (translate_string (fun _ => "\"".toList) [] "hello world".toList).1 = [] ∧
      (translate_string (fun _ => "\"Bonjour\"".toList) [] "hello world".toList).1 =
        "Bonjour".toList :=
  ⟨((C10_quote_stripping (fun _ => "\"".toList) [] "hello world".toList rfl
      (by decide) (by decide)).1).trans (by decide),
    ((C10_quote_stripping (fun _ => "\"Bonjour\"".toList) [] "hello world".toList rfl
      (by decide) (by decide)).1).trans (by decide)⟩

/-! ### C8: QA status derivation -/

theorem criticalContains (c : String) :
    CRITICAL_ISSUES.contains c = true ↔
      c = "empty_translation" ∨ c = "banned_token" ∨ c = "structure_changed" := by
  constructor
  · intro h
    have : c ∈ CRITICAL_ISSUES := by
      rw [List.contains_iff_exists_mem_beq] at h
      obtain ⟨a, ha, hb⟩ := h
      rw [beq_iff_eq] at hb
      rwa [hb]
    simpa [CRITICAL_ISSUES] using this
  · intro h
    have : c ∈ CRITICAL_ISSUES := by
      simp [CRITICAL_ISSUES]
      tauto
    rw [List.contains_iff_exists_mem_beq]
    exact ⟨c, this, beq_self_eq_true c⟩

theorem mkStatusChar (issues : List QaIssue) :
    (mkStatus issues = "fail" ↔
        ∃ i ∈ issues, CRITICAL_ISSUES.contains i.code = true) ∧
      (mkStatus issues = "warn" ↔ issues ≠ [] ∧
        ¬ ∃ i ∈ issues, CRITICAL_ISSUES.contains i.code = true) ∧
      (mkStatus issues = "ok" ↔ issues = []) := by
  by_cases h1 : issues.any (fun i => CRITICAL_ISSUES.contains i.code) = true
  · have hex : ∃ i ∈ issues, CRITICAL_ISSUES.contains i.code = true := by
      obtain ⟨i, hi, hc⟩ := List.any_eq_true.mp h1
      exact ⟨i, hi, hc⟩
    have hne : issues ≠ [] := by
      obtain ⟨i, hi, -⟩ := hex
      intro hh
      rw [hh] at hi
      cases hi
    rw [mkStatus, if_pos h1]
    refine ⟨⟨fun _ => hex, fun _ => rfl⟩,
      ⟨fun hh => absurd hh (by decide), fun hh => absurd hex hh.2⟩,
      ⟨fun hh => absurd hh (by decide), fun hh => absurd hh hne⟩⟩
  · have hnex : ¬ ∃ i ∈ issues, CRITICAL_ISSUES.contains i.code = true := by
      rintro ⟨i, hi, hc⟩
      exact h1 (List.any_eq_true.mpr ⟨i, hi, hc⟩)
    rw [mkStatus, if_neg h1]
    by_cases h2 : issues = []
    · rw [if_neg (fun hh => hh h2)]
      exact ⟨⟨fun hh => absurd hh (by decide), fun hex2 => absurd hex2 hnex⟩,
        ⟨fun hh => absurd hh (by decide), fun hh => absurd h2 hh.1⟩,
        ⟨fun _ => h2, fun _ => rfl⟩⟩
    · rw [if_pos h2]
      exact ⟨⟨fun hh => absurd hh (by decide), fun hex2 => absurd hex2 hnex⟩,
        ⟨fun _ => ⟨h2, hnex⟩, fun _ => rfl⟩,
        ⟨fun hh => absurd hh (by decide), fun hh => absurd hh h2⟩⟩

theorem qaIssueCodes (orig translated : List Char) :
    ∀ i ∈ (qa_code_java orig translated).issues,
      i.code = "empty_translation" ∨ i.code = "structure_changed" ∨
        i.code = "string_count_mismatch" ∨ i.code = "comment_count_mismatch" ∨
        i.code = "banned_token" := by
  intro i hi
  simp only [qa_code_java] at hi
  rcases List.mem_append.mp hi with hi | hi
  · rcases List.mem_append.mp hi with hi | hi
    · rcases List.mem_append.mp hi with hi | hi
      · rcases List.mem_append.mp hi with hi | hi
        · split at hi
          · simp at hi; subst hi; left; rfl
          · cases hi
        · split at hi
          · simp at hi; subst hi; right; left; rfl
          · cases hi
      · split at hi
        · simp at hi; subst hi; right; right; left; rfl
        · cases hi
    · split at hi
      · simp at hi; subst hi; right; right; right; left; rfl
      · cases hi
  · simp only [_check_banned] at hi
    obtain ⟨tok, -, htok⟩ := List.mem_map.mp hi
    right; right; right; right
    rw [← htok]

/-- C8: the Java QA check returns status `fail` exactly when a critical
issue (empty translation, banned token, skeleton mismatch) is present,
`warn` exactly when only non-critical issues (string-count or comment-count
mismatch) are present, and `ok` exactly when there are no issues. -/
theorem C8_qa_status (orig translated : List Char) :
    ((qa_code_java orig translated).status = "fail" ↔
        ∃ i ∈ (qa_code_java orig translated).issues,
          i.code = "empty_translation" ∨ i.code = "banned_token" ∨
            i.code = "structure_changed") ∧
      ((qa_code_java orig translated).status = "warn" ↔
        (qa_code_java orig translated).issues ≠ [] ∧
          ¬ ∃ i ∈ (qa_code_java orig translated).issues,
            i.code = "empty_translation" ∨ i.code = "banned_token" ∨
              i.code = "structure_changed") ∧
      ((qa_code_java orig translated).status = "ok" ↔
        (qa_code_java orig translated).issues = []) ∧
      (∀ i ∈ (qa_code_java orig translated).issues,
        ¬ (i.code = "empty_translation" ∨ i.code = "banned_token" ∨
            i.code = "structure_changed") →
          i.code = "string_count_mismatch" ∨ i.code = "comment_count_mismatch") := by
  have hstat : (qa_code_java orig translated).status =
      mkStatus (qa_code_java orig translated).issues := rfl
  obtain ⟨hc1, hc2, hc3⟩ := mkStatusChar (qa_code_java orig translated).issues
  rw [hstat]
  refine ⟨?_, ?_, hc3, ?_⟩
  · rw [hc1]
    constructor
    · rintro ⟨i, hi, hc⟩
      exact ⟨i, hi, (criticalContains i.code).mp hc⟩
    · rintro ⟨i, hi, hc⟩
      exact ⟨i, hi, (criticalContains i.code).mpr hc⟩
  · rw [hc2]
    constructor
    · rintro ⟨hne, hnex⟩
      exact ⟨hne, fun hh => hnex
        ⟨hh.choose, hh.choose_spec.1, (criticalContains _).mpr hh.choose_spec.2⟩⟩
    · rintro ⟨hne, hnex⟩
      exact ⟨hne, fun hh => hnex
        ⟨hh.choose, hh.choose_spec.1, (criticalContains _).mp hh.choose_spec.2⟩⟩
  · intro i hi hnc
    rcases qaIssueCodes orig translated i hi with h | h | h | h | h
    · exact absurd (Or.inl h) hnc
    · exact absurd (Or.inr (Or.inr h)) hnc
    · exact Or.inl h
    · exact Or.inr h
    · exact absurd (Or.inr (Or.inl h)) hnc

/-- Witness for `C8_qa_status`: two files with identical skeletons get
status `ok` with an empty issue list. -/
theorem C8_qa_status_witness :
    (qa_code_java "// c\nint x;".toList "// d\nint x;".toList).issues = [] ∧
      (qa_code_java "// c\nint x;".toList "// d\nint x;".toList).status = "ok" :=
  ⟨by decide, ((C8_qa_status "// c\nint x;".toList "// d\nint x;".toList).2.2.1).mpr
    (by decide)⟩

/-! ### C9: there is no QA gate in the entry point -/

/-- C9 (counterexample): a run over one file processes that file although
the QA gate is never run — refuting the claim that no project file is
processed before the gate has been run and passed. -/
theorem C9_gate_counterexample :
    MainEvent.fileProcessed "A.java" false ∈ mainTrace [("A.java", false)] ∧
      MainEvent.qaGateRun ∉ mainTrace [("A.java", false)] := by
  decide

/-- C9 (amended): the entry point runs no QA gate at all; it processes every
discovered file — regardless of each file's error outcome — and ends with
the aggregate summary. -/
theorem C9_no_gate_amended (files : List (String × Bool)) :
    MainEvent.qaGateRun ∉ mainTrace files ∧
      (∀ f ∈ files, MainEvent.fileProcessed f.1 f.2 ∈ mainTrace files) ∧
      (mainTrace files).getLast? = some MainEvent.summaryPrinted := by
  refine ⟨?_, ?_, ?_⟩
  · intro h
    rcases List.mem_append.mp h with h | h
    · obtain ⟨f, -, hf⟩ := List.mem_map.mp h
      cases hf
    · simp at h
  · intro f hf
    exact List.mem_append_left _ (List.mem_map.mpr ⟨f, hf, rfl⟩)
  · rw [mainTrace, List.getLast?_append_of_ne_nil _ (by simp)]
    rfl

/-- Witness for `C9_no_gate_amended` at a concrete two-file run with one
errored file. -/
theorem C9_no_gate_amended_witness :
    MainEvent.qaGateRun ∉ mainTrace [("A.java", true), ("B.txt", false)] ∧
      MainEvent.fileProcessed "A.java" true ∈
        mainTrace [("A.java", true), ("B.txt", false)] :=
  ⟨(C9_no_gate_amended [("A.java", true), ("B.txt", false)]).1,
    (C9_no_gate_amended [("A.java", true), ("B.txt", false)]).2.1
      ("A.java", true) (by decide)⟩
